import Mathlib

/-!
Verification development for the `ifgsch` schedule compiler
(`ifgsch.go`: `prepare`, `Expand`, and their helpers).

The Go code is shallowly embedded: dates and times-of-day become `Int`
records with explicit Gregorian calendar arithmetic (rata die), Go maps
become association lists whose keys are sorted exactly where the source
sorts them before iterating, the merge loop becomes fuel-indexed
structural recursion (the fuel is the initial sub-group count, which the
source strictly decreases each epoch), and `slices.SortStableFunc`
becomes a stable insertion sort (stable sorts of a total preorder agree
extensionally).

The external `fusiongo` types (`Date`, `Time`, `TimeRange`, `DateTime`)
come from a separate library repository; they are modelled with their
standard calendar semantics: lexicographic comparison, civil-calendar
day arithmetic, `time.Weekday` numbering with Sunday = 0, and interval
overlap on times of day.

The wall-clock fields `Schedule.Updated`/`Modified` (set from
`time.Now()`) are outside the embedding; the update timestamp's date,
which `prepare` consults for its first-day rule, is passed in as the
`updatedDate` field of the input snapshot.
-/

set_option maxRecDepth 16384
set_option maxHeartbeats 2000000

namespace Ifgsch

/-! ## Times of day -/

/-- Embedding of `fusiongo.Time` (hour/minute/second of day). -/
structure FGTime where
  hour : Int
  minute : Int
  second : Int
deriving DecidableEq, Repr

/-- Zero value of `fusiongo.Time`. -/
def zeroTime : FGTime := ⟨0, 0, 0⟩

/-- Comparison of two `Int`s as `cmp.Compare` does. -/
def cmpInt (a b : Int) : Ordering :=
  if a < b then .lt else if b < a then .gt else .eq

/-- Embedding of `fusiongo.Time.Compare`: lexicographic on hour, minute, second. -/
def FGTime.cmp (a b : FGTime) : Ordering :=
  (cmpInt a.hour b.hour).then ((cmpInt a.minute b.minute).then (cmpInt a.second b.second))

/-- Embedding of `fusiongo.Time.Less`. -/
def FGTime.lessB (a b : FGTime) : Bool := a.cmp b = .lt

/-- Seconds since midnight; used for the merge duration penalty
(`time.Duration` differences scale by a constant factor). -/
def FGTime.sec (a : FGTime) : Int := a.hour * 3600 + a.minute * 60 + a.second

/-! ## Dates -/

/-- Embedding of `fusiongo.Date`. -/
structure FGDate where
  year : Int
  month : Int
  day : Int
deriving DecidableEq, Repr

/-- Zero value of `fusiongo.Date` (`fusiongo.Date{}` in the source). -/
def zeroDate : FGDate := ⟨0, 0, 0⟩

/-- Embedding of `fusiongo.Date.Compare`: lexicographic on year, month, day. -/
def FGDate.cmp (a b : FGDate) : Ordering :=
  (cmpInt a.year b.year).then ((cmpInt a.month b.month).then (cmpInt a.day b.day))

/-- Embedding of `fusiongo.Date.Less`. -/
def FGDate.lessB (a b : FGDate) : Bool := a.cmp b = .lt

/-- Days since 1970-01-01 of a civil date (standard days-from-civil
algorithm, floor divisions). -/
def rataOf (d : FGDate) : Int :=
  let y : Int := if d.month ≤ 2 then d.year - 1 else d.year
  let era : Int := Int.ediv y 400
  let yoe : Int := y - era * 400
  let mp : Int := if 2 < d.month then d.month - 3 else d.month + 9
  let doy : Int := Int.ediv (153 * mp + 2) 5 + d.day - 1
  let doe : Int := yoe * 365 + Int.ediv yoe 4 - Int.ediv yoe 100 + doy
  era * 146097 + doe - 719468

/-- Civil date from days since 1970-01-01 (standard civil-from-days
algorithm). -/
def fromRata (z0 : Int) : FGDate :=
  let z : Int := z0 + 719468
  let era : Int := Int.ediv z 146097
  let doe : Int := z - era * 146097
  let yoe : Int := Int.ediv (doe - Int.ediv doe 1460 + Int.ediv doe 36524 - Int.ediv doe 146096) 365
  let y : Int := yoe + era * 400
  let doy : Int := doe - (365 * yoe + Int.ediv yoe 4 - Int.ediv yoe 100)
  let mp : Int := Int.ediv (5 * doy + 2) 153
  let dday : Int := doy - Int.ediv (153 * mp + 2) 5 + 1
  let m : Int := if mp < 10 then mp + 3 else mp - 9
  ⟨if m ≤ 2 then y + 1 else y, m, dday⟩

/-- Embedding of `fusiongo.Date.AddDays`. -/
def FGDate.addDays (d : FGDate) (n : Int) : FGDate := fromRata (rataOf d + n)

/-- Embedding of `fusiongo.Date.Weekday` (Go `time.Weekday`, Sunday = 0;
1970-01-01 was a Thursday = 4). -/
def FGDate.weekday (d : FGDate) : Int := Int.emod (rataOf d + 4) 7

/-- The list of dates visited by `for d := start; !end.Less(d); d = d.AddDays(1)`. -/
def datesInRange (s e : FGDate) : List FGDate :=
  (List.range (rataOf e - rataOf s + 1).toNat).map (fun i => fromRata (rataOf s + i))

/-! ## Time ranges and date-times -/

/-- Embedding of `fusiongo.TimeRange`; `stop` embeds the Go field `End`. -/
structure TimeRange where
  start : FGTime
  stop : FGTime
deriving DecidableEq, Repr

/-- Zero value of `fusiongo.TimeRange`. -/
def zeroTR : TimeRange := ⟨zeroTime, zeroTime⟩

/-- Embedding of `fusiongo.TimeRange.Compare`: start, then end. -/
def TimeRange.cmp (a b : TimeRange) : Ordering :=
  (a.start.cmp b.start).then (a.stop.cmp b.stop)

/-- Embedding of `fusiongo.TimeRange.TimeOverlaps`: the two time-of-day
intervals intersect. -/
def TimeRange.overlaps (a b : TimeRange) : Bool :=
  a.start.lessB b.stop && b.start.lessB a.stop

/-- Wall-clock duration of a time range in seconds, as computed for the
merge duration penalty (wrapping past midnight when end < start). -/
def TimeRange.durationSec (tr : TimeRange) : Int :=
  if tr.stop.lessB tr.start then 86400 - (tr.start.sec - tr.stop.sec)
  else tr.stop.sec - tr.start.sec

/-- Embedding of `fusiongo.DateTime`. -/
structure FGDateTime where
  date : FGDate
  time : FGTime
deriving DecidableEq, Repr

/-- Embedding of `fusiongo.DateTime.Compare`: date, then time. -/
def FGDateTime.cmp (a b : FGDateTime) : Ordering :=
  (a.date.cmp b.date).then (a.time.cmp b.time)

/-- Embedding of `fusiongo.DateTimeRange`. -/
structure DateTimeRange where
  date : FGDate
  timeRange : TimeRange
deriving DecidableEq, Repr

/-! ## Input records -/

/-- Embedding of `fusiongo.ActivityCategory`. -/
structure ActivityCategory where
  id : String
  name : String
deriving DecidableEq, Repr

/-- Embedding of `fusiongo.ActivityInstance`. -/
structure ActivityInstance where
  activity : String
  activityID : String
  location : String
  description : String
  isCancelled : Bool
  time : DateTimeRange
  category : List ActivityCategory
deriving DecidableEq, Repr

/-- Embedding of the `fusiongo.Schedule` snapshot consumed by `prepare`:
its activity list and the date of its `Updated` timestamp (the only part
of that timestamp `prepare`'s logic reads). -/
structure FSchedule where
  updatedDate : FGDate
  activities : List ActivityInstance
deriving DecidableEq, Repr

/-- Embedding of one `fusiongo.Notifications` record. -/
structure FGNotification where
  text : String
  sent : FGDateTime
deriving DecidableEq, Repr

/-- Embedding of the `ifgsch.Filter` parameter: the Go filter may mutate
the occurrence (through the pointer) and returns whether to keep it. -/
def Filt : Type := ActivityInstance → ActivityInstance × Bool

/-! ## Output schedule -/

/-- Embedding of `ifgsch.Exception`: a date and exactly one marker
(the unset `Time` is the zero `TimeRange`, as in Go). -/
structure Exception where
  date : FGDate
  onlyOnWeekday : Bool
  lastOnWeekday : Bool
  cancelled : Bool
  excluded : Bool
  time : TimeRange
deriving DecidableEq, Repr

/-- An exception with all markers unset, at the given date. -/
def mkExc (d : FGDate) : Exception := ⟨d, false, false, false, false, zeroTR⟩

/-- Embedding of `ifgsch.Instance`; `days` is the `[7]bool` weekday set. -/
structure Instance where
  time : TimeRange
  days : List Bool
  exceptions : List Exception
deriving DecidableEq, Repr

/-- Embedding of `ifgsch.Location`. -/
structure Location where
  name : String
  instances : List Instance
deriving DecidableEq, Repr

/-- Embedding of `ifgsch.Activity`. -/
structure Activity where
  name : String
  locations : List Location
deriving DecidableEq, Repr

/-- Embedding of `ifgsch.Notification`. -/
structure Notification where
  text : String
  sent : FGDateTime
deriving DecidableEq, Repr

/-- Embedding of `ifgsch.Schedule` (sans the wall-clock
`Updated`/`Modified` fields); `stop` embeds the Go field `End`. -/
structure Schedule where
  start : FGDate
  stop : FGDate
  activities : List Activity
  notifications : List Notification
deriving DecidableEq, Repr

/-! ## Generic helpers from the source -/

/-- String comparison as Go `cmp.Compare` on `string` (lexicographic; on
ASCII byte order and char order agree). -/
def cmpString (a b : String) : Ordering :=
  go a.data b.data
where
  go : List Char → List Char → Ordering
    | [], [] => .eq
    | [], _ :: _ => .lt
    | _ :: _, [] => .gt
    | x :: xs, y :: ys => (cmpInt x.val.toNat y.val.toNat).then (go xs ys)

/-- First-seen tally of a list: distinct elements in first-seen order,
each with its count (the `els`/`elCounts` pair in `mostCommon`). -/
def tallyAdd [DecidableEq α] : List (α × Nat) → α → List (α × Nat)
  | [], x => [(x, 1)]
  | (y, n) :: rest, x => if x = y then (y, n + 1) :: rest else (y, n) :: tallyAdd rest x

/-- Tally of a whole list, in first-seen order. -/
def tally [DecidableEq α] (xs : List α) : List (α × Nat) := xs.foldl tallyAdd []

/-- Embedding of `mostCommon`: the first-seen most common element, with
an explicit zero value `z` for the empty list. -/
def mostCommon [DecidableEq α] (z : α) (xs : List α) : α :=
  ((tally xs).foldl (fun best p => if best.2 < p.2 then p else best) (z, 0)).1

/-- Embedding of `mostCommonBy`. -/
def mostCommonBy [DecidableEq α] (z : α) (f : β → α) (xs : List β) : α :=
  mostCommon z (xs.map f)

/-- Keep the representative of each run of `cmp`-equal adjacent elements
(`slices.Compact` / `slices.CompactFunc` on a sorted list; for the
comparators used here, comparing equal implies structural equality). -/
def compactAdj (eqb : α → α → Bool) (l : List α) : List α :=
  l.foldr (fun x acc => match acc with
    | [] => [x]
    | y :: _ => if eqb x y then acc else x :: acc) []

/-- Stable sort by an `Ordering`-valued comparator, as
`slices.SortStableFunc` (insertion sort is stable; stable sorts agree). -/
def sortCmp (cmp : α → α → Ordering) (l : List α) : List α :=
  List.insertionSort (fun a b => (cmp a b).isLE) l

/-- Embedding of `mapFilterSortUniq`/`mapFilterSortUniqFunc`: map and
filter, then sort and deduplicate by the comparator. -/
def mapFilterSortUniq (cmp : α → α → Ordering) (f : Nat × β → Option α) (l : List β) : List α :=
  compactAdj (fun a b => cmp a b = .eq) (sortCmp cmp (l.enum.filterMap f))

/-! ## Normalizer: trim and fake-cancellation conversion -/

/-- ASCII whitespace (the characters `strings.TrimSpace` strips from the
feed's ASCII activity names). -/
def isSpaceChar (c : Char) : Bool := c = ' ' || c = '\t' || c = '\n' || c = '\r'

/-- Embedding of `strings.TrimSpace` for ASCII text. -/
def trimSpace (s : String) : String :=
  String.mk (((s.data.dropWhile isSpaceChar).reverse.dropWhile isSpaceChar).reverse)

/-- Embedding of `strings.CutPrefix`. -/
def cutPre (p s : String) : String × Bool :=
  if s.data.take p.data.length = p.data then (String.mk (s.data.drop p.data.length), true)
  else (s, false)

/-- Embedding of `strings.CutSuffix`. -/
def cutSuf (p s : String) : String × Bool :=
  if s.data.reverse.take p.data.length = p.data.reverse then
    (String.mk ((s.data.reverse.drop p.data.length).reverse), true)
  else (s, false)

/-- The textual cancellation suffixes tested by `prepare`, in source order. -/
def cancelSuffixes : List String :=
  [" - CANCELLED", " - CANCELED",
   " [CANCELLED]", " [CANCELED]",
   " [Cancelled]", " [Canceled]",
   " [cancelled]", " [canceled]",
   " (CANCELLED)", " (CANCELED)",
   " (Cancelled)", " (Canceled)",
   " (cancelled)", " (canceled)"]

/-- Strip the first matching textual cancellation marker (prefixes
`"CANCELLED - "`, `"CANCELED - "`, then the suffix list, first match
wins), returning the cleaned name and whether one matched. -/
def stripCancelMarker (name : String) : String × Bool :=
  let r1 := cutPre "CANCELLED - " name
  if r1.2 then r1 else
  let r2 := cutPre "CANCELED - " name
  if r2.2 then r2 else
  cancelSuffixes.foldl (fun acc suf => if acc.2 then acc else cutSuf suf acc.1) (name, false)

/-- The `possibleMatches` search in `prepare`: every other occurrence in
the current list with the same (cleaned) activity name, same start time
of day, and same weekday, in index order. -/
def possibleMatches (acts : List ActivityInstance) (fai : Nat) (fa : ActivityInstance) :
    List ActivityInstance :=
  (acts.enum.filter (fun p =>
    decide (p.1 ≠ fai) &&
    decide (p.2.activity = fa.activity) &&
    decide (p.2.time.timeRange.start = fa.time.timeRange.start) &&
    decide (p.2.time.date.weekday = fa.time.date.weekday))).map Prod.snd

/-- One step of the fake-cancellation pass: process index `fai` of the
current list (the pass mutates the list in place, so later indices see
earlier repairs). -/
def convertCancellation (acts : List ActivityInstance) (fai : Nat) : List ActivityInstance :=
  match acts.get? fai with
  | none => acts
  | some fa0 =>
    if fa0.isCancelled then acts else
    let r := stripCancelMarker fa0.activity
    if r.2 = false then acts else
    let fa1 : ActivityInstance :=
      { fa0 with activity := r.1, isCancelled := true }
    let ms := possibleMatches acts fai fa1
    let fa2 : ActivityInstance :=
      if ms.isEmpty then fa1 else
      { fa1 with
        activityID := mostCommonBy "" (fun m => m.activityID) ms,
        description := mostCommonBy "" (fun m => m.description) ms,
        location := mostCommonBy "" (fun m => m.location) ms }
    acts.set fai fa2

/-- The trim pass over activity names. -/
def trimPass (acts : List ActivityInstance) : List ActivityInstance :=
  acts.map (fun fa => { fa with activity := trimSpace fa.activity })

/-- The whole fake-cancellation pass, index by index. -/
def cancelPass (acts : List ActivityInstance) : List ActivityInstance :=
  (List.range acts.length).foldl convertCancellation acts

/-- The filter stage: apply the (possibly mutating) filter in order,
keeping survivors. -/
def filterPass (filter : Option Filt) (acts : List ActivityInstance) : List ActivityInstance :=
  match filter with
  | none => acts
  | some f => acts.filterMap (fun fa =>
      let r := f fa
      if r.2 then some r.1 else none)

/-! ## Schedule range -/

/-- The earliest activity date (`ss.Start` in `prepare`), computed over
the raw input activities before filtering. -/
def scheduleStart (acts : List ActivityInstance) : FGDate :=
  acts.foldl (fun acc fa =>
    if acc = zeroDate || fa.time.date.lessB acc then fa.time.date else acc) zeroDate

/-- The latest activity date (`ss.End` in `prepare`). -/
def scheduleEnd (acts : List ActivityInstance) : FGDate :=
  acts.foldl (fun acc fa =>
    if acc = zeroDate || acc.lessB fa.time.date then fa.time.date else acc) zeroDate

/-! ## Partitioner -/

/-- The partition key: activity name, location, weekday. -/
structure PartitionKey where
  activity : String
  location : String
  weekday : Int
deriving DecidableEq, Repr

/-- Partition key of an occurrence. -/
def pkOf (fa : ActivityInstance) : PartitionKey :=
  ⟨fa.activity, fa.location, fa.time.date.weekday⟩

/-- The partition-key comparator used to sort `pks`. -/
def PartitionKey.cmp (a b : PartitionKey) : Ordering :=
  (cmpString a.activity b.activity).then
    ((cmpString a.location b.location).then (cmpInt a.weekday b.weekday))

/-- Sorted, deduplicated partition keys (`pks` in `prepare`). -/
def partitionKeys (acts : List ActivityInstance) : List PartitionKey :=
  mapFilterSortUniq PartitionKey.cmp (fun p => some (pkOf p.2)) acts

/-- Sorted, deduplicated sub-group keys of one partition (`pgks[pk]`). -/
def subgroupKeys (acts : List ActivityInstance) (pk : PartitionKey) : List TimeRange :=
  mapFilterSortUniq TimeRange.cmp
    (fun p => if pkOf p.2 = pk then some p.2.time.timeRange else none) acts

/-- The occurrence indices of one sub-group, in index order
(`pgs[pk][gk]`). -/
def subgroupMembers (acts : List ActivityInstance) (pk : PartitionKey) (gk : TimeRange) :
    List Nat :=
  (acts.enum.filter (fun p =>
    decide (pkOf p.2 = pk) && decide (p.2.time.timeRange = gk))).map Prod.fst

/-! ## Recurrence merger -/

/-- The merge loop state of one partition: the current sub-group keys in
order, each with its member indices. -/
abbrev GroupState : Type := List (TimeRange × List Nat)

/-- Look up a sub-group's members. -/
def lookupG (gs : GroupState) (k : TimeRange) : List Nat :=
  ((gs.find? (fun p => p.1 = k)).map Prod.snd).getD []

/-- Time range of an occurrence index. -/
def trOf (acts : List ActivityInstance) (i : Nat) : TimeRange :=
  ((acts.get? i).map (fun fa => fa.time.timeRange)).getD zeroTR

/-- Date of an occurrence index. -/
def dateOf (acts : List ActivityInstance) (i : Nat) : FGDate :=
  ((acts.get? i).map (fun fa => fa.time.date)).getD zeroDate

/-- A merge candidate, with its penalties and simulated result. -/
structure Candidate where
  into : TimeRange
  fromK : TimeRange
  pExclusion : Nat
  pException : Nat
  pDuration : Int
  resActivities : List Nat
  resTimeRange : TimeRange
deriving DecidableEq, Repr

/-- The base time range of a member list: most common start and most
common end (first-seen tie-break), as computed throughout `prepare`. -/
def groupBase (acts : List ActivityInstance) (ga : List Nat) : TimeRange :=
  ⟨mostCommonBy zeroTime (fun i => (trOf acts i).start) ga,
   mostCommonBy zeroTime (fun i => (trOf acts i).stop) ga⟩

/-- Count of span dates on the partition's weekday not covered by any
member occurrence (the exclusion penalty, and `gkExclusions`). -/
def exclusionCount (acts : List ActivityInstance) (spanDates : List FGDate) (wd : Int)
    (ga : List Nat) : Nat :=
  (spanDates.filter (fun d =>
    decide (d.weekday = wd) && !(ga.any (fun i => decide (dateOf acts i = d))))).length

/-- Build the merge candidate for `(gkInto, gkFrom)`, if legal: dates
must not intersect, and every `From` member must time-overlap some
`Into` member. -/
def mkCandidate (acts : List ActivityInstance) (spanDates : List FGDate) (wd : Int)
    (gs : GroupState) (gkInto gkFrom : TimeRange) : Option Candidate :=
  let into := lookupG gs gkInto
  let fromM := lookupG gs gkFrom
  if fromM.any (fun j => into.any (fun i => decide (dateOf acts i = dateOf acts j))) then none
  else if fromM.any (fun j => !(into.any (fun i =>
    (trOf acts j).overlaps (trOf acts i)))) then none
  else
  let resActs := into ++ fromM
  let resTR := groupBase acts resActs
  let fromTR := groupBase acts fromM
  let pDur := fromTR.durationSec
  let pExc := (resActs.filter (fun i =>
      decide ((trOf acts i).start ≠ resTR.start))).length +
    (resActs.filter (fun i => decide ((trOf acts i).stop ≠ resTR.stop))).length
  let pExcl := exclusionCount acts spanDates wd resActs
  some ⟨gkInto, gkFrom, pExcl, pExc, pDur, resActs, resTR⟩

/-- All candidates of the current state, enumerated as in the source
(outer loop `gkInto`, inner loop `gkFrom` over the sorted keys). -/
def candidatesFor (acts : List ActivityInstance) (spanDates : List FGDate) (wd : Int)
    (gks : List TimeRange) (gs : GroupState) : List Candidate :=
  gks.flatMap (fun gkInto => gks.filterMap (fun gkFrom =>
    mkCandidate acts spanDates wd gs gkInto gkFrom))

/-- The candidate comparator of the ranking sort: exclusion penalty,
then exception penalty, then duration penalty, then the `Into` range. -/
def Candidate.cmp (a b : Candidate) : Ordering :=
  (cmpInt a.pExclusion b.pExclusion).then
    ((cmpInt a.pException b.pException).then
      ((cmpInt a.pDuration b.pDuration).then (a.into.cmp b.into)))

/-- Apply a chosen candidate: replace the `Into` group's members with the
merged result and delete the `From` key. -/
def applyCandidate (c : Candidate) (gks : List TimeRange) (gs : GroupState) :
    List TimeRange × GroupState :=
  (gks.filter (fun gk => decide (gk ≠ c.fromK)),
   (gs.map (fun p => if p.1 = c.into then (p.1, c.resActivities) else p)).filter
     (fun p => decide (p.1 ≠ c.fromK)))

/-- One merge epoch: enumerate candidates, stably sort them by the
ranking comparator, and apply the first; `none` when no candidate is
legal. -/
def stepMerge (acts : List ActivityInstance) (spanDates : List FGDate) (wd : Int)
    (gks : List TimeRange) (gs : GroupState) : Option (List TimeRange × GroupState) :=
  match sortCmp Candidate.cmp (candidatesFor acts spanDates wd gks gs) with
  | [] => none
  | c :: _ => some (applyCandidate c gks gs)

/-- The merge loop, fuelled: the source's loop runs until no candidate
remains, deleting one sub-group key per epoch, so any fuel of at least
the initial key count reaches the fixpoint. -/
def mergeLoop (acts : List ActivityInstance) (spanDates : List FGDate) (wd : Int) :
    Nat → List TimeRange → GroupState → List TimeRange × GroupState
  | 0, gks, gs => (gks, gs)
  | n + 1, gks, gs =>
    match stepMerge acts spanDates wd gks gs with
    | none => (gks, gs)
    | some st => mergeLoop acts spanDates wd n st.1 st.2

/-- The fully merged groups of one partition, in remaining-key order. -/
def finalGroups (acts : List ActivityInstance) (spanDates : List FGDate)
    (pk : PartitionKey) : GroupState :=
  let gks := subgroupKeys acts pk
  let gs : GroupState := gks.map (fun gk => (gk, subgroupMembers acts pk gk))
  let st := mergeLoop acts spanDates pk.weekday gks.length gks gs
  st.2

/-- The base time range of every occurrence index after merging
(`baseActivityTimeRange` before the split pass); unassigned slots hold
the Go zero value, but every index belongs to exactly one group. -/
def baseMapMerged (acts : List ActivityInstance) (spanDates : List FGDate) :
    List TimeRange :=
  (partitionKeys acts).foldl
    (fun bm pk =>
      (finalGroups acts spanDates pk).foldl
        (fun bm2 p =>
          let tr := groupBase acts p.2
          p.2.foldl (fun bm3 fai => bm3.set fai tr) bm2)
        bm)
    (acts.map (fun _ => zeroTR))

/-! ## Post-merge split heuristic -/

/-- Collect the members' exact time ranges, failing (like the source's
`continue gkNext`) on a cancelled member or a duplicate time range. -/
def collectDistinctTimes (acts : List ActivityInstance) :
    List Nat → List TimeRange → Option (List TimeRange)
  | [], seen => some seen
  | i :: rest, seen =>
    match acts.get? i with
    | none => collectDistinctTimes acts rest seen
    | some fa =>
      if fa.isCancelled then none
      else if seen.contains fa.time.timeRange then none
      else collectDistinctTimes acts rest (seen ++ [fa.time.timeRange])

/-- Whether the split heuristic fires for a merged group: no cancelled
member, all member time ranges distinct, more than one distinct time,
and at least as many weekday exclusions as distinct times. -/
def splitDecision (acts : List ActivityInstance) (spanDates : List FGDate) (wd : Int)
    (ga : List Nat) : Bool :=
  match collectDistinctTimes acts ga [] with
  | none => false
  | some times =>
    if times.length = 1 then false
    else decide (times.length ≤ exclusionCount acts spanDates wd ga)

/-- The split pass: for each final group where the heuristic fires,
revert every member's base time range to its own exact time range. -/
def splitPass (acts : List ActivityInstance) (spanDates : List FGDate)
    (bm : List TimeRange) : List TimeRange :=
  (partitionKeys acts).foldl
    (fun bm1 pk =>
      (finalGroups acts spanDates pk).foldl
        (fun bm2 p =>
          if splitDecision acts spanDates pk.weekday p.2 then
            p.2.foldl (fun bm3 fai => bm3.set fai (trOf acts fai)) bm2
          else bm2)
        bm1)
    bm

/-- The final base time range assignment of `prepare`. -/
def baseMapFinal (acts : List ActivityInstance) (spanDates : List FGDate) :
    List TimeRange :=
  splitPass acts spanDates (baseMapMerged acts spanDates)

/-! ## Exception synthesizer and schedule building -/

/-- Base time range of index `i` under a base map. -/
def baseOf (bm : List TimeRange) (i : Nat) : TimeRange := bm.getD i zeroTR

/-- Whether index `i` belongs to the instance `(activity, location, btr)`. -/
def coversIdx (acts : List ActivityInstance) (bm : List TimeRange)
    (activity location : String) (btr : TimeRange) (i : Nat) : Prop :=
  ∃ fa, acts.get? i = some fa ∧ fa.activity = activity ∧ fa.location = location ∧
    baseOf bm i = btr

instance (acts : List ActivityInstance) (bm : List TimeRange)
    (activity location : String) (btr : TimeRange) (i : Nat) :
    Decidable (coversIdx acts bm activity location btr i) := by
  unfold coversIdx
  exact inferInstance

/-- Boolean form of `coversIdx` for an enumerated pair. -/
def coversB (bm : List TimeRange) (activity location : String) (btr : TimeRange)
    (p : Nat × ActivityInstance) : Bool :=
  decide (p.2.activity = activity) && decide (p.2.location = location) &&
    decide (baseOf bm p.1 = btr)

/-- The weekday-active set of one instance (`ssInstance.Days`). -/
def instanceDays (acts : List ActivityInstance) (bm : List TimeRange)
    (activity location : String) (btr : TimeRange) : List Bool :=
  (List.range 7).map (fun w =>
    acts.enum.any (fun p => coversB bm activity location btr p &&
      decide (p.2.time.date.weekday = Int.ofNat w)))

/-- Number of covered occurrences on a weekday (`instanceCount`). -/
def instanceCount (acts : List ActivityInstance) (bm : List TimeRange)
    (activity location : String) (btr : TimeRange) (w : Int) : Nat :=
  (acts.enum.filter (fun p => coversB bm activity location btr p &&
    decide (p.2.time.date.weekday = w))).length

/-- The latest covered date on a weekday (`last[wd]` before the zeroing
step); the Go zero date when none. -/
def lastRaw (acts : List ActivityInstance) (bm : List TimeRange)
    (activity location : String) (btr : TimeRange) (w : Int) : FGDate :=
  acts.enum.foldl (fun acc p =>
    if acc.lessB p.2.time.date && coversB bm activity location btr p &&
        decide (p.2.time.date.weekday = w) then p.2.time.date else acc) zeroDate

/-- `last[wd]` after the zeroing step: kept only when strictly earlier
than the schedule end minus seven days. -/
def lastAdj (acts : List ActivityInstance) (bm : List TimeRange)
    (activity location : String) (btr : TimeRange) (endD : FGDate) (w : Int) : FGDate :=
  let l := lastRaw acts bm activity location btr w
  if !(l.lessB (endD.addDays (-7))) then zeroDate else l

/-- First covered occurrence on a date, in index order (the `exists`
search of the synthesis loop). -/
def findOcc (acts : List ActivityInstance) (bm : List TimeRange)
    (activity location : String) (btr : TimeRange) (d : FGDate) :
    Option (Nat × ActivityInstance) :=
  acts.enum.find? (fun p => decide (p.2.time.date = d) &&
    coversB bm activity location btr p)

/-- The exceptions synthesized for one date of one instance, in append
order. -/
def dateExceptions (acts : List ActivityInstance) (bm : List TimeRange)
    (activity location : String) (btr : TimeRange)
    (startD updatedD endD : FGDate) (d : FGDate) : List Exception :=
  let w := d.weekday
  let cnt := instanceCount acts bm activity location btr w
  let lst := lastAdj acts bm activity location btr endD w
  match findOcc acts bm activity location btr d with
  | some p =>
    (if p.2.isCancelled then [{ mkExc d with cancelled := true }]
     else if p.2.time.timeRange ≠ btr then [{ mkExc d with time := p.2.time.timeRange }]
     else [])
    ++ (if cnt = 1 then [{ mkExc d with onlyOnWeekday := true }]
        else if lst = d then [{ mkExc d with lastOnWeekday := true }]
        else [])
  | none =>
    if cnt = 1 then []
    else if d = startD && startD.lessB updatedD then []
    else if lst = zeroDate || !(lst.lessB d) then [{ mkExc d with excluded := true }]
    else []

/-- Build one instance: base time range, weekday set, and the exceptions
of every span date whose weekday is active. -/
def buildInstance (acts : List ActivityInstance) (bm : List TimeRange)
    (spanDates : List FGDate) (startD updatedD endD : FGDate)
    (activity location : String) (btr : TimeRange) : Instance :=
  let days := instanceDays acts bm activity location btr
  ⟨btr, days,
   spanDates.flatMap (fun d =>
     if days.getD d.weekday.toNat false then
       dateExceptions acts bm activity location btr startD updatedD endD d
     else [])⟩

/-- Build the activity/location/instance tree of the output schedule. -/
def buildActivities (acts : List ActivityInstance) (bm : List TimeRange)
    (spanDates : List FGDate) (startD updatedD endD : FGDate) : List Activity :=
  (mapFilterSortUniq cmpString (fun p => some p.2.activity) acts).map (fun aname =>
    ⟨aname,
     (mapFilterSortUniq cmpString
        (fun p => if p.2.activity = aname then some p.2.location else none) acts).map
       (fun lname =>
         ⟨lname,
          (mapFilterSortUniq TimeRange.cmp
             (fun p => if p.2.activity = aname && p.2.location = lname then
                some (baseOf bm p.1) else none) acts).map
            (fun btr => buildInstance acts bm spanDates startD updatedD endD aname lname btr)⟩)⟩)

/-! ## Notifications -/

/-- The notification ordering of the stable sort (ascending by sent
timestamp) applied before the final reverse. -/
def notifLE (a b : Notification) : Prop := (a.sent.cmp b.sent).isLE = true

instance : DecidableRel notifLE := fun a b => by
  unfold notifLE
  exact inferInstance

/-- The notification stage of `prepare`: copy, stable-sort ascending by
sent time, then reverse (nil input yields no notification list). -/
def notifOut (notifs : Option (List FGNotification)) : List Notification :=
  match notifs with
  | none => []
  | some l => (List.insertionSort notifLE (l.map (fun n => ⟨n.text, n.sent⟩))).reverse

/-! ## prepare and Expand -/

/-- Embedding of `prepare` (and thus `Prepare`): the compiled schedule
paired with the returned error, which the source always leaves nil. -/
def prepare (sched : FSchedule) (notifs : Option (List FGNotification))
    (filter : Option Filt) : Schedule × Option String :=
  let startD := scheduleStart sched.activities
  let endD := scheduleEnd sched.activities
  let acts := filterPass filter (cancelPass (trimPass sched.activities))
  let spanDates := datesInRange startD endD
  let bm := baseMapFinal acts spanDates
  (⟨startD, endD,
    buildActivities acts bm spanDates startD sched.updatedDate endD,
    notifOut notifs⟩,
   none)

/-- The compiled schedule of `Prepare`. -/
def prepareS (sched : FSchedule) (notifs : Option (List FGNotification))
    (filter : Option Filt) : Schedule :=
  (prepare sched notifs filter).1

/-- One date of `Expand`: scan the exceptions in order, with the early
exits of the source (`continue date`), returning the emitted time range,
cancellation flag, and exception flag, or `none` when the date is
skipped. The source's unreachable `panic("wtf")` default arm (an
exception with no marker set) is modelled as marking the exception and
continuing. -/
def expandDate (i : Instance) (date : FGDate) : Option (TimeRange × Bool × Bool) :=
  go i.exceptions i.time false false
where
  go : List Exception → TimeRange → Bool → Bool → Option (TimeRange × Bool × Bool)
    | [], t, c, e => some (t, c, e)
    | x :: rest, t, c, e =>
      if x.date = date then
        if x.onlyOnWeekday then go rest t c true
        else if x.lastOnWeekday then go rest t c true
        else if x.excluded then none
        else if x.cancelled then go rest t true true
        else if x.time ≠ zeroTR then go rest x.time c true
        else go rest t c true
      else if x.onlyOnWeekday && decide (date.weekday = x.date.weekday) then none
      else if x.lastOnWeekday && decide (date.weekday = x.date.weekday) &&
          x.date.lessB date then none
      else go rest t c e

/-- Embedding of `Expand`: the events emitted to the callback, in order. -/
def expand (s : Schedule) (i : Instance) : List (DateTimeRange × Bool × Bool) :=
  (datesInRange s.start s.stop).filterMap (fun d =>
    if i.days.getD d.weekday.toNat false then
      (expandDate i d).map (fun r => (⟨d, r.1⟩, r.2.1, r.2.2))
    else none)

/-! ## Round-trip tuples -/

/-- An event tuple for the round-trip comparison: activity, location,
date, time range, cancelled. -/
structure EventTuple where
  activity : String
  location : String
  date : FGDate
  time : TimeRange
  cancelled : Bool
deriving DecidableEq, Repr

/-- All tuples of the expanded compiled schedule. -/
def expandAllTuples (s : Schedule) : List EventTuple :=
  s.activities.flatMap (fun a => a.locations.flatMap (fun l =>
    l.instances.flatMap (fun i => (expand s i).map (fun r =>
      ⟨a.name, l.name, r.1.date, r.1.timeRange, r.2.1⟩))))

/-- The tuples of an occurrence list. -/
def inputTuples (acts : List ActivityInstance) : List EventTuple :=
  acts.map (fun fa =>
    ⟨fa.activity, fa.location, fa.time.date, fa.time.timeRange, fa.isCancelled⟩)

/-- The uniqueness precondition: no two occurrences share activity name,
location, date, and start time. -/
def uniqueOccKeys (acts : List ActivityInstance) : Bool :=
  acts.enum.all (fun p => acts.enum.all (fun q =>
    decide (p.1 = q.1) ||
    !(decide (p.2.activity = q.2.activity) && decide (p.2.location = q.2.location) &&
      decide (p.2.time.date = q.2.time.date) &&
      decide (p.2.time.timeRange.start = q.2.time.timeRange.start))))

/-- The stronger per-date uniqueness condition: no two occurrences share
activity name, location, and date (regardless of start time). -/
def uniqueOccDates (acts : List ActivityInstance) : Bool :=
  acts.enum.all (fun p => acts.enum.all (fun q =>
    decide (p.1 = q.1) ||
    !(decide (p.2.activity = q.2.activity) && decide (p.2.location = q.2.location) &&
      decide (p.2.time.date = q.2.time.date))))

/-- Restriction of an event tuple list to the given dates. -/
def restrictTuples (ts : List EventTuple) (ds : List FGDate) : List EventTuple :=
  ts.filter (fun t => ds.contains t.date)

/-! ## Concrete inputs used by the claim theorems -/

/-- Date literal shorthand. -/
def fgDate (y m d : Int) : FGDate := ⟨y, m, d⟩

/-- Time literal shorthand. -/
def fgTime (h m : Int) : FGTime := ⟨h, m, 0⟩

/-- Time-range literal shorthand. -/
def fgTR (h1 m1 h2 m2 : Int) : TimeRange := ⟨fgTime h1 m1, fgTime h2 m2⟩

/-- Occurrence literal shorthand. -/
def mkOcc (name loc : String) (y m d h1 mi1 h2 mi2 : Int) (canc : Bool) : ActivityInstance :=
  ⟨name, "id0", loc, "", canc, ⟨fgDate y m d, fgTR h1 mi1 h2 mi2⟩, [⟨"1", "T"⟩]⟩

/-- Three Monday occurrences of one activity; the middle one is
cancelled and runs 9:00 to 10:00 while the other two run 9:00 to 10:30,
so the merged base time range is 9:00 to 10:30. -/
def exC1 : FSchedule :=
  ⟨fgDate 2022 12 26,
   [mkOcc "A" "L" 2022 12 26 9 0 10 30 false,
    mkOcc "A" "L" 2023 1 2 9 0 10 0 true,
    mkOcc "A" "L" 2023 1 9 9 0 10 30 false]⟩

/-- Two occurrences sharing activity, location, date, and start time
(differing only in end time): the uniqueness precondition is violated. -/
def exC2 : FSchedule :=
  ⟨fgDate 2023 1 2,
   [mkOcc "A" "L" 2023 1 2 9 0 10 0 false,
    mkOcc "A" "L" 2023 1 2 9 0 11 0 false]⟩

/-- A fake-cancelled occurrence whose two backfill matches carry
different locations: the majority vote ties and is broken by first-seen
input order. -/
def exC3a : FSchedule :=
  ⟨fgDate 2023 1 2,
   [mkOcc "Yoga" "L2" 2023 1 2 9 0 10 0 false,
    mkOcc "Yoga" "L3" 2023 1 9 9 0 10 0 false,
    mkOcc "Yoga - CANCELLED" "L1" 2023 1 16 9 0 10 0 false]⟩

/-- The same occurrence set as `exC3a` with the first two records
swapped. -/
def exC3b : FSchedule :=
  ⟨fgDate 2023 1 2,
   [mkOcc "Yoga" "L3" 2023 1 9 9 0 10 0 false,
    mkOcc "Yoga" "L2" 2023 1 2 9 0 10 0 false,
    mkOcc "Yoga - CANCELLED" "L1" 2023 1 16 9 0 10 0 false]⟩

/-- Two Monday occurrences of one activity with identical time ranges;
the second is the chronologically last occurrence and falls within the
final 7 days of the span (it is the span's end). -/
def exC4 : FSchedule :=
  ⟨fgDate 2023 1 2,
   [mkOcc "A" "L" 2023 1 2 9 0 10 0 false,
    mkOcc "A" "L" 2023 1 9 9 0 10 0 false]⟩

/-- Activity A: two merged Monday occurrences with distinct exact time
ranges, one of them cancelled; activity B widens the span to five
Mondays so A has three missing-date exclusions. -/
def exC6 : FSchedule :=
  ⟨fgDate 2023 1 2,
   [mkOcc "A" "L" 2023 1 9 9 0 10 0 false,
    mkOcc "A" "L" 2023 1 16 9 0 10 30 true,
    mkOcc "B" "L" 2023 1 2 14 0 15 0 false,
    mkOcc "B" "L" 2023 1 30 14 0 15 0 false]⟩

/-- Like `exC6` but with no cancelled occurrence, so the post-merge
split heuristic fires for the A group. -/
def exC6s : FSchedule :=
  ⟨fgDate 2023 1 2,
   [mkOcc "A" "L" 2023 1 9 9 0 10 0 false,
    mkOcc "A" "L" 2023 1 16 9 0 10 30 false,
    mkOcc "B" "L" 2023 1 2 14 0 15 0 false,
    mkOcc "B" "L" 2023 1 30 14 0 15 0 false]⟩

/-- One activity/location on seven consecutive Mondays m1..m7 (six
occurrences; m2, m3 are always uncovered). The greedy merger fuses the
9:00-9:40, 9:00-9:45, 9:00-9:35, and 9:43-10:00 sub-groups into one
group whose computed base is 9:00-10:00, while the lone 9:00-10:00
occurrence on m1 stays a separate group (its date m1 clashes with the
9:43-10:00 occurrence on m1): two final groups share the base
9:00-10:00 and the date m1. -/
def exC7 : FSchedule :=
  ⟨fgDate 2023 1 2,
   [mkOcc "A" "L" 2023 1 2 9 0 10 0 false,
    mkOcc "A" "L" 2023 1 23 9 0 9 40 false,
    mkOcc "A" "L" 2023 1 30 9 0 9 45 false,
    mkOcc "A" "L" 2023 2 13 9 0 9 35 false,
    mkOcc "A" "L" 2023 2 6 9 43 10 0 false,
    mkOcc "A" "L" 2023 1 2 9 43 10 0 false]⟩

/-- A single cancelled occurrence: its weekday count is 1, so the
synthesizer emits both a cancelled and an only-on-weekday exception for
the same date. -/
def exC9 : FSchedule :=
  ⟨fgDate 2023 1 2, [mkOcc "A" "L" 2023 1 2 9 0 10 0 true]⟩

/-- The instance compiled from `exC9`. -/
def instC9 : Instance :=
  ⟨fgTR 9 0 10 0, [false, true, false, false, false, false, false],
   [{ mkExc (fgDate 2023 1 2) with cancelled := true },
    { mkExc (fgDate 2023 1 2) with onlyOnWeekday := true }]⟩

/-- Cancelled-exception literal. -/
def excC (d : FGDate) : Exception := { mkExc d with cancelled := true }

/-- Only-on-weekday-exception literal. -/
def excO (d : FGDate) : Exception := { mkExc d with onlyOnWeekday := true }

/-- Last-on-weekday-exception literal. -/
def excL (d : FGDate) : Exception := { mkExc d with lastOnWeekday := true }

/-- Excluded-exception literal. -/
def excX (d : FGDate) : Exception := { mkExc d with excluded := true }

/-- Time-override-exception literal. -/
def excT (d : FGDate) (tr : TimeRange) : Exception := { mkExc d with time := tr }

/-- The Monday-only weekday set. -/
def monOnly : List Bool := [false, true, false, false, false, false, false]

/-! ### Staged pipeline constants of the concrete inputs

Evaluating `prepare` inside one large term makes the elaborator
re-reduce each pipeline stage at every use site, so the claim proofs
below stage each input's pipeline through top-level constants and
evaluate each stage against an explicit literal once. -/

/-- The occurrence list `prepare` compiles for `exC1`. -/
def actsC1 : List ActivityInstance :=
  filterPass none (cancelPass (trimPass exC1.activities))

/-- The span dates of `exC1`. -/
def spanC1 : List FGDate :=
  datesInRange (scheduleStart exC1.activities) (scheduleEnd exC1.activities)

/-- The base map of `exC1`. -/
def bmC1 : List TimeRange := baseMapFinal actsC1 spanC1

/-- The compiled schedule of `exC1`, as a literal. -/
def litC1 : Schedule :=
  ⟨fgDate 2022 12 26, fgDate 2023 1 9,
   [⟨"A", [⟨"L", [⟨fgTR 9 0 10 30, monOnly, [excC (fgDate 2023 1 2)]⟩]⟩]⟩], []⟩

/-- The occurrence list `prepare` compiles for `exC3a`. -/
def actsC3 : List ActivityInstance :=
  filterPass none (cancelPass (trimPass exC3a.activities))

/-- The span dates of `exC3a`. -/
def spanC3 : List FGDate :=
  datesInRange (scheduleStart exC3a.activities) (scheduleEnd exC3a.activities)

/-- The base map of `exC3a`. -/
def bmC3 : List TimeRange := baseMapFinal actsC3 spanC3

/-- The compiled schedule of `exC3a`, as a literal: the fake-cancelled
Yoga occurrence lands at location L2. -/
def litC3a : Schedule :=
  ⟨fgDate 2023 1 2, fgDate 2023 1 16,
   [⟨"Yoga",
     [⟨"L2", [⟨fgTR 9 0 10 0, monOnly,
        [excX (fgDate 2023 1 9), excC (fgDate 2023 1 16)]⟩]⟩,
      ⟨"L3", [⟨fgTR 9 0 10 0, monOnly, [excO (fgDate 2023 1 9)]⟩]⟩]⟩], []⟩

/-- The occurrence list `prepare` compiles for `exC3b`. -/
def actsC3b : List ActivityInstance :=
  filterPass none (cancelPass (trimPass exC3b.activities))

/-- The span dates of `exC3b`. -/
def spanC3b : List FGDate :=
  datesInRange (scheduleStart exC3b.activities) (scheduleEnd exC3b.activities)

/-- The base map of `exC3b`. -/
def bmC3b : List TimeRange := baseMapFinal actsC3b spanC3b

/-- The compiled schedule of `exC3b`, as a literal: the fake-cancelled
Yoga occurrence lands at location L3 instead. -/
def litC3b : Schedule :=
  ⟨fgDate 2023 1 2, fgDate 2023 1 16,
   [⟨"Yoga",
     [⟨"L2", [⟨fgTR 9 0 10 0, monOnly, [excO (fgDate 2023 1 2)]⟩]⟩,
      ⟨"L3", [⟨fgTR 9 0 10 0, monOnly,
        [excX (fgDate 2023 1 2), excC (fgDate 2023 1 16)]⟩]⟩]⟩], []⟩

/-- The occurrence list `prepare` compiles for `exC4`. -/
def actsC4 : List ActivityInstance :=
  filterPass none (cancelPass (trimPass exC4.activities))

/-- The span dates of `exC4`. -/
def spanC4 : List FGDate :=
  datesInRange (scheduleStart exC4.activities) (scheduleEnd exC4.activities)

/-- The base map of `exC4`. -/
def bmC4 : List TimeRange := baseMapFinal actsC4 spanC4

/-- The compiled schedule of `exC4`, as a literal: no exceptions at
all, in particular no last-on-weekday exception. -/
def litC4 : Schedule :=
  ⟨fgDate 2023 1 2, fgDate 2023 1 9,
   [⟨"A", [⟨"L", [⟨fgTR 9 0 10 0, monOnly, []⟩]⟩]⟩], []⟩

/-- The occurrence list `prepare` compiles for `exC6` (its normalizer
and filter stages leave `exC6` unchanged). -/
def actsC6 : List ActivityInstance :=
  filterPass none (cancelPass (trimPass exC6.activities))

/-- The span dates of `exC6`. -/
def spanC6 : List FGDate :=
  datesInRange (scheduleStart exC6.activities) (scheduleEnd exC6.activities)

/-- The occurrence list `prepare` compiles for `exC6s`. -/
def actsC6s : List ActivityInstance :=
  filterPass none (cancelPass (trimPass exC6s.activities))

/-- The span dates of `exC6s`. -/
def spanC6s : List FGDate :=
  datesInRange (scheduleStart exC6s.activities) (scheduleEnd exC6s.activities)

/-- The occurrence list `prepare` compiles for `exC7`. -/
def actsC7 : List ActivityInstance :=
  filterPass none (cancelPass (trimPass exC7.activities))

/-- The span dates of `exC7`. -/
def spanC7 : List FGDate :=
  datesInRange (scheduleStart exC7.activities) (scheduleEnd exC7.activities)

/-- The base map of `exC7`. -/
def bmC7 : List TimeRange := baseMapFinal actsC7 spanC7

/-- The compiled schedule of `exC7`, as a literal: a single 9:00-10:00
Monday instance. -/
def litC7 : Schedule :=
  ⟨fgDate 2023 1 2, fgDate 2023 2 13,
   [⟨"A", [⟨"L", [⟨fgTR 9 0 10 0, monOnly,
      [excX (fgDate 2023 1 9), excX (fgDate 2023 1 16),
       excT (fgDate 2023 1 23) (fgTR 9 0 9 40),
       excT (fgDate 2023 1 30) (fgTR 9 0 9 45),
       excT (fgDate 2023 2 6) (fgTR 9 43 10 0),
       excT (fgDate 2023 2 13) (fgTR 9 0 9 35)]⟩]⟩]⟩], []⟩

/-- The compiled schedule of `exC9`, as a literal. -/
def litC9 : Schedule :=
  ⟨fgDate 2023 1 2, fgDate 2023 1 2, [⟨"A", [⟨"L", [instC9]⟩]⟩], []⟩

/-- Staged form of `prepare` on `exC1` (definitional unfolding). -/
theorem stageC1 : prepareS exC1 (some []) none =
    ⟨scheduleStart exC1.activities, scheduleEnd exC1.activities,
     buildActivities actsC1 bmC1 spanC1 (scheduleStart exC1.activities)
       exC1.updatedDate (scheduleEnd exC1.activities),
     notifOut (some [])⟩ := rfl

/-- Evaluation of `prepare` on `exC1`. -/
theorem evalC1 : prepareS exC1 (some []) none = litC1 := by
  rw [stageC1]; decide

/-- Staged form of `prepare` on `exC3a`. -/
theorem stageC3a : prepareS exC3a (some []) none =
    ⟨scheduleStart exC3a.activities, scheduleEnd exC3a.activities,
     buildActivities actsC3 bmC3 spanC3 (scheduleStart exC3a.activities)
       exC3a.updatedDate (scheduleEnd exC3a.activities),
     notifOut (some [])⟩ := rfl

/-- Evaluation of `prepare` on `exC3a`. -/
theorem evalC3a : prepareS exC3a (some []) none = litC3a := by
  rw [stageC3a]; decide

/-- Staged form of `prepare` on `exC3b`. -/
theorem stageC3b : prepareS exC3b (some []) none =
    ⟨scheduleStart exC3b.activities, scheduleEnd exC3b.activities,
     buildActivities actsC3b bmC3b spanC3b (scheduleStart exC3b.activities)
       exC3b.updatedDate (scheduleEnd exC3b.activities),
     notifOut (some [])⟩ := rfl

/-- Evaluation of `prepare` on `exC3b`. -/
theorem evalC3b : prepareS exC3b (some []) none = litC3b := by
  rw [stageC3b]; decide

/-- Staged form of `prepare` on `exC4`. -/
theorem stageC4 : prepareS exC4 (some []) none =
    ⟨scheduleStart exC4.activities, scheduleEnd exC4.activities,
     buildActivities actsC4 bmC4 spanC4 (scheduleStart exC4.activities)
       exC4.updatedDate (scheduleEnd exC4.activities),
     notifOut (some [])⟩ := rfl

/-- Evaluation of `prepare` on `exC4`. -/
theorem evalC4 : prepareS exC4 (some []) none = litC4 := by
  rw [stageC4]; decide

/-- Staged form of `prepare` on `exC7`. -/
theorem stageC7 : prepareS exC7 (some []) none =
    ⟨scheduleStart exC7.activities, scheduleEnd exC7.activities,
     buildActivities actsC7 bmC7 spanC7 (scheduleStart exC7.activities)
       exC7.updatedDate (scheduleEnd exC7.activities),
     notifOut (some [])⟩ := rfl

/-- Evaluation of `prepare` on `exC7`. -/
theorem evalC7 : prepareS exC7 (some []) none = litC7 := by
  rw [stageC7]; decide

/-- The base map of `exC9`. -/
def bmC9 : List TimeRange :=
  baseMapFinal (filterPass none (cancelPass (trimPass exC9.activities)))
    (datesInRange (scheduleStart exC9.activities) (scheduleEnd exC9.activities))

/-- Staged form of `prepare` on `exC9`. -/
theorem stageC9 : prepareS exC9 (some []) none =
    ⟨scheduleStart exC9.activities, scheduleEnd exC9.activities,
     buildActivities (filterPass none (cancelPass (trimPass exC9.activities))) bmC9
       (datesInRange (scheduleStart exC9.activities) (scheduleEnd exC9.activities))
       (scheduleStart exC9.activities) exC9.updatedDate (scheduleEnd exC9.activities),
     notifOut (some [])⟩ := rfl

/-- Evaluation of `prepare` on `exC9`. -/
theorem evalC9 : prepareS exC9 (some []) none = litC9 := by
  rw [stageC9]; decide

/-! ## Claim theorems -/

/-- C1 (round-trip law): evaluation of the code at a failing input. For
the three-occurrence set `exC1`, which satisfies the uniqueness
precondition, expanding the compiled schedule restricted to the dates
present in the input does not equal the input occurrence set as
(activity, location, date, time range, cancelled) tuples: the cancelled
occurrence of 2023-01-02 ran 9:00-10:00, but the compiler records only
a bare cancelled exception inside the 9:00-10:30 base instance, so
expansion reports it at 9:00-10:30 and the real time range 9:00-10:00
is lost (the claim requires the sets to be equal, and the mismatching
date is not the schedule's first covered date). -/
theorem c1_roundtrip_code_bug :
    uniqueOccKeys exC1.activities = true ∧
    (restrictTuples (expandAllTuples (prepareS exC1 (some []) none))
        (exC1.activities.map (fun fa => fa.time.date))).toFinset ≠
      (inputTuples exC1.activities).toFinset ∧
    (⟨"A", "L", fgDate 2023 1 2, fgTR 9 0 10 30, true⟩ : EventTuple) ∈
      restrictTuples (expandAllTuples (prepareS exC1 (some []) none))
        (exC1.activities.map (fun fa => fa.time.date)) ∧
    (⟨"A", "L", fgDate 2023 1 2, fgTR 9 0 10 0, true⟩ : EventTuple) ∈
      inputTuples exC1.activities ∧
    (⟨"A", "L", fgDate 2023 1 2, fgTR 9 0 10 0, true⟩ : EventTuple) ∉
      restrictTuples (expandAllTuples (prepareS exC1 (some []) none))
        (exC1.activities.map (fun fa => fa.time.date)) := by
  rw [evalC1]
  refine ⟨by decide, by decide, by decide, by decide, by decide⟩

/-- C2 counterexample: `exC2` contains two occurrences sharing
(activity, location, date, start time), yet `prepare` returns a nil
error and a non-empty schedule instead of failing with an
invariant-violation error. -/
theorem c2_counterexample :
    uniqueOccKeys exC2.activities = false ∧
    (prepare exC2 (some []) none).2 = none ∧
    (prepare exC2 (some []) none).1.activities ≠ [] := by
  refine ⟨by decide, rfl, by decide⟩

/-- C2 amended: compilation never fails. `prepare` returns a nil error
for every input, duplicate-key occurrence sets included; no uniqueness
invariant is enforced anywhere in the pipeline (the error result is
hard-wired to nil at the single return site). -/
theorem c2_amended_no_error (sched : FSchedule) (notifs : Option (List FGNotification))
    (filter : Option Filt) : (prepare sched notifs filter).2 = none := rfl

/-- C3 counterexample: `exC3b` is a permutation of `exC3a` (with the
same update date), both satisfy the uniqueness precondition, yet the
compiled schedules differ: the fake-cancelled Yoga occurrence's
location is backfilled by a majority vote whose tie between L2 and L3
is broken by first-seen input order. -/
theorem c3_counterexample_permutation :
    uniqueOccKeys exC3a.activities = true ∧
    exC3b.activities.Perm exC3a.activities ∧
    exC3b.updatedDate = exC3a.updatedDate ∧
    prepareS exC3b (some []) none ≠ prepareS exC3a (some []) none := by
  rw [evalC3a, evalC3b]
  refine ⟨by decide, by decide, rfl, by decide⟩

/-- C3 amended: compilation is a deterministic pure function of the
input snapshot - compiling the same occurrence set twice yields
identical compiled schedules - but byte-identical output is not
preserved under permutation of the input record order: a tie in the
cancellation-backfill majority vote is broken by first-seen input
order, so `exC3a` and its permutation `exC3b` compile differently. -/
theorem c3_amended_determinism :
    (∀ (sched : FSchedule) (notifs : Option (List FGNotification)) (filter : Option Filt),
      prepare sched notifs filter = prepare sched notifs filter) ∧
    prepareS exC3b (some []) none ≠ prepareS exC3a (some []) none :=
  ⟨fun _ _ _ => rfl, by rw [evalC3a, evalC3b]; decide⟩

/-- C4 counterexample: in `exC4` the chronologically last Monday
occurrence (2023-01-09) falls within the final 7 days of the span (it
is the span's end), so the claim requires a last-on-weekday exception
on it; the code instead zeroes `last` for that weekday and emits no
exception at all. -/
theorem c4_counterexample :
    lastRaw actsC4 bmC4 "A" "L" (fgTR 9 0 10 0) 1 = fgDate 2023 1 9 ∧
    (fgDate 2023 1 9).lessB ((scheduleEnd exC4.activities).addDays (-7)) = false ∧
    (prepareS exC4 (some []) none).activities =
      [⟨"A", [⟨"L", [⟨fgTR 9 0 10 0, monOnly, []⟩]⟩]⟩] := by
  rw [evalC4]
  refine ⟨by decide, by decide, by decide⟩

/-- C6 counterexample: the merged A group of `exC6` (members 1 and 0)
has pairwise-distinct exact time ranges and three missing-date
exclusions on its weekday - at least as many as its two distinct time
ranges - so the claim requires the merge to be undone; but one member
is cancelled, and the code keeps the merged base 9:00-10:30 for member
0 instead of reverting it to its own 9:00-10:00. -/
theorem c6_counterexample :
    finalGroups actsC6 spanC6 ⟨"A", "L", 1⟩ = [(fgTR 9 0 10 30, [1, 0])] ∧
    ([1, 0].map (trOf actsC6)).Nodup ∧
    2 ≤ exclusionCount actsC6 spanC6 1 [1, 0] ∧
    baseOf (baseMapFinal actsC6 spanC6) 0 = fgTR 9 0 10 30 ∧
    trOf actsC6 0 = fgTR 9 0 10 0 := by
  refine ⟨by decide, by decide, by decide, by decide, by decide⟩

/-- C7 counterexample: `exC7` satisfies the uniqueness precondition
(its two 2023-01-02 occurrences start at 9:00 and 9:43), yet after
merging, the lone 9:00-10:00 group and the four-way merged group both
compute the base time range 9:00-10:00, so the single compiled
9:00-10:00 Instance covers occurrence 0 and occurrence 5, which share
the date 2023-01-02. -/
theorem c7_counterexample :
    uniqueOccKeys exC7.activities = true ∧
    ((prepareS exC7 (some []) none).activities.map
      (fun a => a.locations.map (fun l => l.instances.map (fun i => i.time)))) =
      [[[fgTR 9 0 10 0]]] ∧
    coversIdx actsC7 bmC7 "A" "L" (fgTR 9 0 10 0) 0 ∧
    coversIdx actsC7 bmC7 "A" "L" (fgTR 9 0 10 0) 5 ∧
    dateOf actsC7 0 = dateOf actsC7 5 := by
  rw [evalC7]
  refine ⟨by decide, by decide, by decide, by decide, by decide⟩

/-! ## Comparator laws

The source sorts with `Ordering`-valued comparators throughout; the
ranking and sorting theorems below need them to be lawful total
preorders. -/

/-- A lawful comparator: antisymmetric under `swap` and transitive in
each of its strict/equal combinations. -/
structure LawfulCmp (cmp : α → α → Ordering) : Prop where
  swap : ∀ a b, cmp b a = (cmp a b).swap
  lt_lt : ∀ a b c, cmp a b = .lt → cmp b c = .lt → cmp a c = .lt
  eq_eq : ∀ a b c, cmp a b = .eq → cmp b c = .eq → cmp a c = .eq
  eq_lt : ∀ a b c, cmp a b = .eq → cmp b c = .lt → cmp a c = .lt
  lt_eq : ∀ a b c, cmp a b = .lt → cmp b c = .eq → cmp a c = .lt

theorem LawfulCmp.refl {cmp : α → α → Ordering} (h : LawfulCmp cmp) (a : α) :
    cmp a a = .eq := by
  have hs := h.swap a a
  rcases he : cmp a a with _ | _ | _
  · rw [he] at hs; exact absurd hs (by decide)
  · rfl
  · rw [he] at hs; exact absurd hs (by decide)

theorem LawfulCmp.isLE_total {cmp : α → α → Ordering} (h : LawfulCmp cmp) (a b : α) :
    (cmp a b).isLE = true ∨ (cmp b a).isLE = true := by
  have hs := h.swap a b
  rcases he : cmp a b with _ | _ | _
  · left; rfl
  · left; rfl
  · right; rw [hs, he]; rfl

theorem LawfulCmp.isLE_trans {cmp : α → α → Ordering} (h : LawfulCmp cmp) (a b c : α)
    (hab : (cmp a b).isLE = true) (hbc : (cmp b c).isLE = true) :
    (cmp a c).isLE = true := by
  rcases h1 : cmp a b with _ | _ | _
  · rcases h2 : cmp b c with _ | _ | _
    · rw [h.lt_lt a b c h1 h2]; rfl
    · rw [h.lt_eq a b c h1 h2]; rfl
    · rw [h2] at hbc; exact absurd hbc (by decide)
  · rcases h2 : cmp b c with _ | _ | _
    · rw [h.eq_lt a b c h1 h2]; rfl
    · rw [h.eq_eq a b c h1 h2]; rfl
    · rw [h2] at hbc; exact absurd hbc (by decide)
  · rw [h1] at hab; exact absurd hab (by decide)

theorem lawful_cmpInt : LawfulCmp cmpInt := by
  constructor
  · intro a b
    unfold cmpInt
    split_ifs <;> simp [Ordering.swap] <;> omega
  all_goals
    intro a b c h1 h2
  all_goals
    unfold cmpInt at h1 h2 ⊢
  all_goals
    split_ifs at h1 h2 ⊢ <;> first | rfl | omega | simp_all

theorem lawful_comap {cmp : α → α → Ordering} (f : β → α) (h : LawfulCmp cmp) :
    LawfulCmp (fun x y => cmp (f x) (f y)) := by
  constructor
  · exact fun a b => h.swap (f a) (f b)
  · exact fun a b c => h.lt_lt (f a) (f b) (f c)
  · exact fun a b c => h.eq_eq (f a) (f b) (f c)
  · exact fun a b c => h.eq_lt (f a) (f b) (f c)
  · exact fun a b c => h.lt_eq (f a) (f b) (f c)

theorem Ordering.then_eq_lt_iff (o1 o2 : Ordering) :
    o1.then o2 = .lt ↔ (o1 = .lt ∨ (o1 = .eq ∧ o2 = .lt)) := by
  cases o1 <;> simp [Ordering.then]

theorem Ordering.then_eq_eq_iff (o1 o2 : Ordering) :
    o1.then o2 = .eq ↔ (o1 = .eq ∧ o2 = .eq) := by
  cases o1 <;> simp [Ordering.then]

theorem lawful_then {f g : α → α → Ordering} (hf : LawfulCmp f) (hg : LawfulCmp g) :
    LawfulCmp (fun a b => (f a b).then (g a b)) := by
  constructor
  · intro a b
    rw [hf.swap a b, hg.swap a b]
    rcases f a b with _ | _ | _ <;> rcases g a b with _ | _ | _ <;> rfl
  · intro a b c h1 h2
    rw [Ordering.then_eq_lt_iff] at h1 h2 ⊢
    rcases h1 with h1 | ⟨h1, h1g⟩
    · rcases h2 with h2 | ⟨h2, h2g⟩
      · exact Or.inl (hf.lt_lt a b c h1 h2)
      · exact Or.inl (hf.lt_eq a b c h1 h2)
    · rcases h2 with h2 | ⟨h2, h2g⟩
      · exact Or.inl (hf.eq_lt a b c h1 h2)
      · exact Or.inr ⟨hf.eq_eq a b c h1 h2, hg.lt_lt a b c h1g h2g⟩
  · intro a b c h1 h2
    rw [Ordering.then_eq_eq_iff] at h1 h2 ⊢
    exact ⟨hf.eq_eq a b c h1.1 h2.1, hg.eq_eq a b c h1.2 h2.2⟩
  · intro a b c h1 h2
    rw [Ordering.then_eq_eq_iff] at h1
    rw [Ordering.then_eq_lt_iff] at h2 ⊢
    rcases h2 with h2 | ⟨h2, h2g⟩
    · exact Or.inl (hf.eq_lt a b c h1.1 h2)
    · exact Or.inr ⟨hf.eq_eq a b c h1.1 h2, hg.eq_lt a b c h1.2 h2g⟩
  · intro a b c h1 h2
    rw [Ordering.then_eq_eq_iff] at h2
    rw [Ordering.then_eq_lt_iff] at h1 ⊢
    rcases h1 with h1 | ⟨h1, h1g⟩
    · exact Or.inl (hf.lt_eq a b c h1 h2.1)
    · exact Or.inr ⟨hf.eq_eq a b c h1 h2.1, hg.lt_eq a b c h1g h2.2⟩

theorem lawful_timeCmp : LawfulCmp FGTime.cmp := by
  have : LawfulCmp (fun a b : FGTime =>
      (cmpInt a.hour b.hour).then ((cmpInt a.minute b.minute).then (cmpInt a.second b.second))) :=
    lawful_then (lawful_comap FGTime.hour lawful_cmpInt)
      (lawful_then (lawful_comap FGTime.minute lawful_cmpInt)
        (lawful_comap FGTime.second lawful_cmpInt))
  exact this

theorem lawful_dateCmp : LawfulCmp FGDate.cmp := by
  have : LawfulCmp (fun a b : FGDate =>
      (cmpInt a.year b.year).then ((cmpInt a.month b.month).then (cmpInt a.day b.day))) :=
    lawful_then (lawful_comap FGDate.year lawful_cmpInt)
      (lawful_then (lawful_comap FGDate.month lawful_cmpInt)
        (lawful_comap FGDate.day lawful_cmpInt))
  exact this

theorem lawful_trCmp : LawfulCmp TimeRange.cmp := by
  have : LawfulCmp (fun a b : TimeRange =>
      (FGTime.cmp a.start b.start).then (FGTime.cmp a.stop b.stop)) :=
    lawful_then (lawful_comap TimeRange.start lawful_timeCmp)
      (lawful_comap TimeRange.stop lawful_timeCmp)
  exact this

theorem lawful_dtCmp : LawfulCmp FGDateTime.cmp := by
  have : LawfulCmp (fun a b : FGDateTime =>
      (FGDate.cmp a.date b.date).then (FGTime.cmp a.time b.time)) :=
    lawful_then (lawful_comap FGDateTime.date lawful_dateCmp)
      (lawful_comap FGDateTime.time lawful_timeCmp)
  exact this

/-- The decomposition of `Ordering.isLE` over `Ordering.then`. -/
theorem then_isLE_iff (o1 o2 : Ordering) :
    (o1.then o2).isLE = true ↔ (o1 = .lt ∨ (o1 = .eq ∧ o2.isLE = true)) := by
  cases o1 <;> simp [Ordering.then, Ordering.isLE]

/-! ## Merge candidate ranking (claim C5) -/

/-- The candidate preorder stated by the claim: the penalty triple
(exclusion, exception, duration) compared lexicographically, remaining
ties broken by the `Into` range's chronological start. -/
def Candidate.claimCmp (a b : Candidate) : Ordering :=
  (cmpInt a.pExclusion b.pExclusion).then
    ((cmpInt a.pException b.pException).then
      ((cmpInt a.pDuration b.pDuration).then (a.into.start.cmp b.into.start)))

theorem lawful_candCmp : LawfulCmp Candidate.cmp := by
  have : LawfulCmp (fun a b : Candidate =>
      (cmpInt a.pExclusion b.pExclusion).then
        ((cmpInt a.pException b.pException).then
          ((cmpInt a.pDuration b.pDuration).then (TimeRange.cmp a.into b.into)))) :=
    lawful_then (lawful_comap (fun c : Candidate => (c.pExclusion : Int)) lawful_cmpInt)
      (lawful_then (lawful_comap (fun c : Candidate => (c.pException : Int)) lawful_cmpInt)
        (lawful_then (lawful_comap Candidate.pDuration lawful_cmpInt)
          (lawful_comap Candidate.into lawful_trCmp)))
  exact this

/-- The source's ranking comparator refines the claim's: any candidate
least under the source's full comparator is also least under the
claim's (penalties, then the `Into` range's start). -/
theorem candCmp_isLE_claimCmp (a b : Candidate)
    (h : (Candidate.cmp a b).isLE = true) : (Candidate.claimCmp a b).isLE = true := by
  unfold Candidate.cmp at h
  unfold Candidate.claimCmp
  rw [then_isLE_iff] at h ⊢
  rcases h with h | ⟨h1, h⟩
  · exact Or.inl h
  refine Or.inr ⟨h1, ?_⟩
  rw [then_isLE_iff] at h ⊢
  rcases h with h | ⟨h2, h⟩
  · exact Or.inl h
  refine Or.inr ⟨h2, ?_⟩
  rw [then_isLE_iff] at h ⊢
  rcases h with h | ⟨h3, h⟩
  · exact Or.inl h
  refine Or.inr ⟨h3, ?_⟩
  unfold TimeRange.cmp at h
  rw [then_isLE_iff] at h
  rcases h with h | ⟨h4, _⟩
  · rw [h]; rfl
  · rw [h4]; rfl

/-- The head of `sortCmp` is minimal among the list's elements. -/
theorem sortCmp_head_min {cmp : α → α → Ordering} (h : LawfulCmp cmp) (l : List α)
    (c : α) (rest : List α) (he : sortCmp cmp l = c :: rest) :
    ∀ x ∈ l, (cmp c x).isLE = true := by
  haveI : IsTotal α (fun a b => (cmp a b).isLE = true) := ⟨fun a b => h.isLE_total a b⟩
  haveI : IsTrans α (fun a b => (cmp a b).isLE = true) := ⟨fun a b c => h.isLE_trans a b c⟩
  have hsorted : List.Sorted (fun a b => (cmp a b).isLE = true) (sortCmp cmp l) :=
    List.sorted_insertionSort _ l
  have hperm : (sortCmp cmp l).Perm l := List.perm_insertionSort _ l
  intro x hx
  have hx2 : x ∈ c :: rest := he ▸ hperm.symm.subset hx
  rw [he] at hsorted
  rcases List.mem_cons.mp hx2 with hxc | hxr
  · rw [hxc, h.refl c]; rfl
  · exact (List.pairwise_cons.mp hsorted).1 x hxr

/-- C5 (merger candidate ranking): at every merge epoch with at least
one legal candidate, the step applies exactly one candidate of the
enumerated list, namely one that is least under the claim's ranking -
the (exclusion-penalty, exception-penalty, duration-penalty) triple
compared lexicographically ascending with remaining ties broken by the
`Into` range's chronological start - and the loop (`mergeLoop`)
re-enumerates the candidates of the shrunken state from scratch on the
next epoch. -/
theorem c5_candidate_ranking (acts : List ActivityInstance) (spanDates : List FGDate)
    (wd : Int) (gks : List TimeRange) (gs : GroupState)
    (h : candidatesFor acts spanDates wd gks gs ≠ []) :
    ∃ c, c ∈ candidatesFor acts spanDates wd gks gs ∧
      stepMerge acts spanDates wd gks gs = some (applyCandidate c gks gs) ∧
      ∀ c2 ∈ candidatesFor acts spanDates wd gks gs,
        (Candidate.claimCmp c c2).isLE = true := by
  rcases he : sortCmp Candidate.cmp (candidatesFor acts spanDates wd gks gs) with _ | ⟨c, rest⟩
  · exfalso
    apply h
    have hperm := List.perm_insertionSort
      (fun a b => (Candidate.cmp a b).isLE = true) (candidatesFor acts spanDates wd gks gs)
    rw [show List.insertionSort (fun a b => (Candidate.cmp a b).isLE = true)
        (candidatesFor acts spanDates wd gks gs) =
        sortCmp Candidate.cmp (candidatesFor acts spanDates wd gks gs) from rfl, he] at hperm
    exact hperm.symm.eq_nil
  · refine ⟨c, ?_, ?_, ?_⟩
    · have hperm := List.perm_insertionSort
        (fun a b => (Candidate.cmp a b).isLE = true) (candidatesFor acts spanDates wd gks gs)
      rw [show List.insertionSort (fun a b => (Candidate.cmp a b).isLE = true)
          (candidatesFor acts spanDates wd gks gs) =
          sortCmp Candidate.cmp (candidatesFor acts spanDates wd gks gs) from rfl, he] at hperm
      exact hperm.subset (List.mem_cons_self c rest)
    · unfold stepMerge
      rw [he]
    · intro c2 hc2
      exact candCmp_isLE_claimCmp c c2
        (sortCmp_head_min lawful_candCmp _ c rest he c2 hc2)

/-- A two-group merge state used to witness C5: two overlapping
singleton sub-groups on distinct Mondays. -/
def actsW : List ActivityInstance :=
  [mkOcc "A" "L" 2023 1 2 9 0 10 0 false,
   mkOcc "A" "L" 2023 1 9 9 30 10 30 false]

/-- The sub-group keys of the C5 witness state. -/
def gksW : List TimeRange := [fgTR 9 0 10 0, fgTR 9 30 10 30]

/-- The sub-groups of the C5 witness state. -/
def gsW : GroupState := [(fgTR 9 0 10 0, [0]), (fgTR 9 30 10 30, [1])]

/-- The span of the C5 witness state. -/
def spanW : List FGDate := datesInRange (fgDate 2023 1 2) (fgDate 2023 1 9)

/-- Witness for C5 at the concrete state `gksW`/`gsW`. -/
theorem c5_candidate_ranking_witness :
    ∃ c, c ∈ candidatesFor actsW spanW 1 gksW gsW ∧
      stepMerge actsW spanW 1 gksW gsW = some (applyCandidate c gksW gsW) ∧
      ∀ c2 ∈ candidatesFor actsW spanW 1 gksW gsW,
        (Candidate.claimCmp c c2).isLE = true :=
  c5_candidate_ranking actsW spanW 1 gksW gsW (by decide)

/-! ## Post-merge split heuristic (claim C6) -/

/-- Relating `trOf` to a successful index lookup. -/
theorem trOf_eq {acts : List ActivityInstance} {i : Nat} {fa : ActivityInstance}
    (h : acts.get? i = some fa) : trOf acts i = fa.time.timeRange := by
  unfold trOf
  rw [h]
  rfl

/-- Full characterization of `collectDistinctTimes` relative to its
seen accumulator: it succeeds with the accumulated distinct times
exactly when no member is cancelled and all member time ranges (plus
the accumulator) are pairwise distinct. -/
theorem collectDistinctTimes_spec (acts : List ActivityInstance) :
    ∀ (ga : List Nat) (seen : List TimeRange),
      (∀ i ∈ ga, i < acts.length) → seen.Nodup →
      ((collectDistinctTimes acts ga seen = some (seen ++ ga.map (trOf acts)) ∧
        (∀ i ∈ ga, (acts.get? i).all (fun fa => !fa.isCancelled) = true) ∧
        (seen ++ ga.map (trOf acts)).Nodup) ∨
       (collectDistinctTimes acts ga seen = none ∧
        ¬((∀ i ∈ ga, (acts.get? i).all (fun fa => !fa.isCancelled) = true) ∧
          (seen ++ ga.map (trOf acts)).Nodup))) := by
  intro ga
  induction ga with
  | nil =>
    intro seen hin hseen
    left
    refine ⟨by simp [collectDistinctTimes], by simp, by simpa using hseen⟩
  | cons i rest ih =>
    intro seen hin hseen
    have hi : i < acts.length := hin i (List.mem_cons_self i rest)
    obtain ⟨fa, hfa⟩ : ∃ fa, acts.get? i = some fa := ⟨_, List.get?_eq_get hi⟩
    have htr : trOf acts i = fa.time.timeRange := trOf_eq hfa
    have hstep : collectDistinctTimes acts (i :: rest) seen =
        (if fa.isCancelled then none
         else if seen.contains fa.time.timeRange then none
         else collectDistinctTimes acts rest (seen ++ [fa.time.timeRange])) := by
      simp only [collectDistinctTimes, hfa]
    by_cases hc : fa.isCancelled
    · right
      constructor
      · rw [hstep, if_pos hc]
      · rintro ⟨hAll, -⟩
        have := hAll i (List.mem_cons_self i rest)
        rw [hfa] at this
        simp [Option.all, hc] at this
    · by_cases hmem : fa.time.timeRange ∈ seen
      · right
        constructor
        · rw [hstep, if_neg hc, if_pos (by simpa [List.elem_iff] using hmem)]
        · rintro ⟨-, hnd⟩
          rw [List.map_cons, htr] at hnd
          rcases List.nodup_append.mp hnd with ⟨-, -, hdisj⟩
          exact hdisj hmem (List.mem_cons_self _ _)
      · have hseen2 : (seen ++ [fa.time.timeRange]).Nodup := by
          rw [List.nodup_append]
          exact ⟨hseen, List.nodup_singleton _, by
            intro x hx hx2
            rw [List.mem_singleton.mp hx2] at hx
            exact hmem hx⟩
        have hin2 : ∀ j ∈ rest, j < acts.length :=
          fun j hj => hin j (List.mem_cons_of_mem i hj)
        have hassoc : seen ++ (i :: rest).map (trOf acts) =
            (seen ++ [fa.time.timeRange]) ++ rest.map (trOf acts) := by
          rw [List.map_cons, htr, List.append_cons]
        have hred : collectDistinctTimes acts (i :: rest) seen =
            collectDistinctTimes acts rest (seen ++ [fa.time.timeRange]) := by
          rw [hstep, if_neg hc, if_neg (by simpa [List.elem_iff] using hmem)]
        have hAllsplit : (∀ j ∈ i :: rest, (acts.get? j).all (fun fb => !fb.isCancelled) = true)
            ↔ (∀ j ∈ rest, (acts.get? j).all (fun fb => !fb.isCancelled) = true) := by
          constructor
          · intro h j hj
            exact h j (List.mem_cons_of_mem i hj)
          · intro h j hj
            rcases List.mem_cons.mp hj with hji | hjr
            · rw [hji, hfa]
              simp [Option.all, hc]
            · exact h j hjr
        rcases ih (seen ++ [fa.time.timeRange]) hin2 hseen2 with ⟨hcol, hAll, hnd⟩ | ⟨hcol, hneg⟩
        · left
          refine ⟨?_, ?_, ?_⟩
          · rw [hred, hcol, hassoc]
          · exact hAllsplit.mpr hAll
          · rw [hassoc]
            exact hnd
        · right
          refine ⟨by rw [hred, hcol], ?_⟩
          rintro ⟨hAll, hnd⟩
          exact hneg ⟨hAllsplit.mp hAll, by rw [hassoc] at hnd; exact hnd⟩

/-- A fold of `List.set` updates read back at an untouched index. -/
theorem setFold_getD_not_mem (g : Nat → TimeRange) :
    ∀ (ga : List Nat) (bm : List TimeRange) (i : Nat), i ∉ ga →
      (ga.foldl (fun b f => b.set f (g f)) bm).getD i zeroTR = bm.getD i zeroTR := by
  intro ga
  induction ga with
  | nil => intro bm i _; rfl
  | cons a rest ih =>
    intro bm i hni
    have hia : i ≠ a := fun h => hni (h ▸ List.mem_cons_self a rest)
    have hnr : i ∉ rest := fun h => hni (List.mem_cons_of_mem a h)
    rw [List.foldl_cons, ih _ i hnr,
      List.getD_eq_getElem?_getD, List.getD_eq_getElem?_getD,
      List.getElem?_set_ne (fun h => hia h.symm)]

/-- A fold of `List.set` updates read back at a member index. -/
theorem setFold_getD_mem (g : Nat → TimeRange) :
    ∀ (ga : List Nat) (bm : List TimeRange) (i : Nat), i ∈ ga → i < bm.length →
      (ga.foldl (fun b f => b.set f (g f)) bm).getD i zeroTR = g i := by
  intro ga
  induction ga with
  | nil => intro bm i h _; exact absurd h (List.not_mem_nil i)
  | cons a rest ih =>
    intro bm i hmem hlen
    rw [List.foldl_cons]
    by_cases hr : i ∈ rest
    · exact ih _ i hr (by rw [List.length_set]; exact hlen)
    · have hia : i = a := by
        rcases List.mem_cons.mp hmem with h | h
        · exact h
        · exact absurd h hr
      subst hia
      rw [setFold_getD_not_mem g rest _ i hr, List.getD_eq_getElem?_getD,
        List.getElem?_set_self (by exact hlen), Option.getD_some]

/-- C6 amended (post-merge split heuristic): the merge of a final group
is undone - every member's base time range reverts to its own exact
time range - exactly when no member occurrence is cancelled, every
member has a distinct exact time range, there is more than one distinct
time range, and the weekday has at least as many missing-date
exclusions as distinct time ranges. The claim's statement omits the
no-cancelled-member condition. -/
theorem c6_amended_split_rule (acts : List ActivityInstance) (spanDates : List FGDate)
    (wd : Int) (ga : List Nat) (bm : List TimeRange)
    (hin : ∀ i ∈ ga, i < acts.length) (hbm : bm.length = acts.length) :
    (splitDecision acts spanDates wd ga = true ↔
      ((∀ i ∈ ga, (acts.get? i).all (fun fa => !fa.isCancelled) = true) ∧
       (ga.map (trOf acts)).Nodup ∧
       ga.length ≠ 1 ∧
       ga.length ≤ exclusionCount acts spanDates wd ga)) ∧
    (splitDecision acts spanDates wd ga = true →
      ∀ i ∈ ga, (ga.foldl (fun bm2 fai => bm2.set fai (trOf acts fai)) bm).getD i zeroTR =
        trOf acts i) := by
  constructor
  · rcases collectDistinctTimes_spec acts ga [] hin List.nodup_nil with
      ⟨hcol, hAll, hnd⟩ | ⟨hcol, hneg⟩
    · rw [List.nil_append] at hcol hnd
      have hlen : (ga.map (trOf acts)).length = ga.length := List.length_map _ _
      unfold splitDecision
      rw [hcol]
      by_cases hl : (ga.map (trOf acts)).length = 1
      · simp only [hl, if_pos rfl]
        constructor
        · intro h
          exact absurd h (by simp)
        · rintro ⟨-, -, h1, -⟩
          exact absurd (hlen ▸ hl) h1
      · simp only [if_neg hl]
        constructor
        · intro h
          refine ⟨hAll, hnd, by rw [← hlen]; exact hl, ?_⟩
          rw [← hlen]
          exact of_decide_eq_true h
        · rintro ⟨-, -, -, h4⟩
          exact decide_eq_true (hlen ▸ h4)
    · unfold splitDecision
      rw [hcol]
      simp only [List.nil_append] at hneg
      constructor
      · intro h
        exact absurd h (by simp)
      · rintro ⟨hAll, hnd, -, -⟩
        exact absurd ⟨hAll, hnd⟩ hneg
  · intro _ i hi
    exact setFold_getD_mem (trOf acts) ga bm i hi (hbm ▸ hin i hi)

/-- Witness for C6 at the cancellation-free variant `exC6s`: the
conditions hold for its merged A group, so the theorem yields
`splitDecision = true` and the revert of member 0. -/
theorem c6_amended_split_rule_witness :
    splitDecision actsC6s spanC6s 1 [1, 0] = true ∧
    ([1, 0].foldl (fun bm2 fai => bm2.set fai (trOf actsC6s fai))
      (baseMapMerged actsC6s spanC6s)).getD 0 zeroTR = trOf actsC6s 0 := by
  have h := c6_amended_split_rule actsC6s spanC6s 1 [1, 0] (baseMapMerged actsC6s spanC6s)
    (by decide) (by decide)
  have hdec : splitDecision actsC6s spanC6s 1 [1, 0] = true :=
    h.1.mpr ⟨by decide, by decide, by decide, by decide⟩
  exact ⟨hdec, h.2 hdec 0 (by decide)⟩

/-! ## Instance cover and per-date uniqueness (claim C7) -/

/-- The occurrence list `prepare` compiles (normalizer plus filter). -/
def prepAList (sched : FSchedule) (filter : Option Filt) : List ActivityInstance :=
  filterPass filter (cancelPass (trimPass sched.activities))

/-- The base time range assignment `prepare` computes. -/
def prepBaseMap (sched : FSchedule) (filter : Option Filt) : List TimeRange :=
  baseMapFinal (prepAList sched filter)
    (datesInRange (scheduleStart sched.activities) (scheduleEnd sched.activities))

/-- The staging of `prepare` through `prepAList`/`prepBaseMap` is
definitional. -/
theorem prepare_stages (sched : FSchedule) (notifs : Option (List FGNotification))
    (filter : Option Filt) :
    prepare sched notifs filter =
      (⟨scheduleStart sched.activities, scheduleEnd sched.activities,
        buildActivities (prepAList sched filter) (prepBaseMap sched filter)
          (datesInRange (scheduleStart sched.activities) (scheduleEnd sched.activities))
          (scheduleStart sched.activities) sched.updatedDate (scheduleEnd sched.activities),
        notifOut notifs⟩, none) := rfl

/-- Relating `dateOf` to a successful index lookup. -/
theorem dateOf_eq {acts : List ActivityInstance} {i : Nat} {fa : ActivityInstance}
    (h : acts.get? i = some fa) : dateOf acts i = fa.time.date := by
  unfold dateOf
  rw [h]
  rfl

/-- Unpacking the Boolean per-date uniqueness check. -/
theorem uniqueOccDates_spec {acts : List ActivityInstance}
    (h : uniqueOccDates acts = true) :
    ∀ i j fa fb, acts.get? i = some fa → acts.get? j = some fb → i ≠ j →
      ¬(fa.activity = fb.activity ∧ fa.location = fb.location ∧
        fa.time.date = fb.time.date) := by
  intro i j fa fb hi hj hij hcon
  have hmi : (i, fa) ∈ acts.enum := List.mk_mem_enum_iff_get?.mpr hi
  have hmj : (j, fb) ∈ acts.enum := List.mk_mem_enum_iff_get?.mpr hj
  have h2 := List.all_eq_true.mp (List.all_eq_true.mp h (i, fa) hmi) (j, fb) hmj
  rcases Bool.or_eq_true_iff.mp h2 with h3 | h3
  · exact hij (by simpa using h3)
  · have h4 : (¬fa.activity = fb.activity ∨ ¬fa.location = fb.location) ∨
        ¬fa.time.date = fb.time.date := by simpa using h3
    rcases h4 with (h4 | h4) | h4
    · exact h4 hcon.1
    · exact h4 hcon.2.1
    · exact h4 hcon.2.2

/-- C7 amended (merge legality invariant): for every compiled input in
which no two occurrences share (activity name, location, date) - a
condition strictly stronger than the uniqueness precondition, which
also keys on start time - no Instance of the compiled schedule covers
two source occurrences with the same date: any two distinct occurrence
indices covered by the same (activity, location, base time range)
instance of `prepare`'s base-time-range grouping have distinct dates. -/
theorem c7_amended_unique_dates (sched : FSchedule) (filter : Option Filt)
    (activity location : String) (btr : TimeRange) (i j : Nat)
    (hu : uniqueOccDates (prepAList sched filter) = true)
    (hi : coversIdx (prepAList sched filter) (prepBaseMap sched filter)
      activity location btr i)
    (hj : coversIdx (prepAList sched filter) (prepBaseMap sched filter)
      activity location btr j)
    (hij : i ≠ j) :
    dateOf (prepAList sched filter) i ≠ dateOf (prepAList sched filter) j := by
  obtain ⟨fa, hfa, hfaa, hfal, -⟩ := hi
  obtain ⟨fb, hfb, hfba, hfbl, -⟩ := hj
  rw [dateOf_eq hfa, dateOf_eq hfb]
  intro hdate
  exact uniqueOccDates_spec hu i j fa fb hfa hfb hij
    ⟨hfaa.trans hfba.symm, hfal.trans hfbl.symm, hdate⟩

/-- Witness for C7 amended at `exC4`, whose occurrences are on distinct
dates: the two occurrences covered by the 9:00-10:00 instance have
distinct dates. -/
theorem c7_amended_unique_dates_witness :
    dateOf (prepAList exC4 none) 0 ≠ dateOf (prepAList exC4 none) 1 :=
  c7_amended_unique_dates exC4 none "A" "L" (fgTR 9 0 10 0) 0 1
    (by decide) (by decide) (by decide) (by decide)

/-! ## Last-on-weekday rule (claim C4) -/

theorem dle_refl (a : FGDate) : (FGDate.cmp a a).isLE = true := by
  rw [lawful_dateCmp.refl]
  rfl

theorem lessB_true_dle {a b : FGDate} (h : a.lessB b = true) :
    (FGDate.cmp a b).isLE = true := by
  rw [show a.cmp b = .lt from of_decide_eq_true h]
  rfl

theorem lessB_false_dle {a b : FGDate} (h : a.lessB b = false) :
    (FGDate.cmp b a).isLE = true := by
  have h2 : ¬(FGDate.cmp a b = .lt) := of_decide_eq_false h
  rcases hc : FGDate.cmp a b with _ | _ | _
  · exact absurd hc h2
  · rw [lawful_dateCmp.swap a b, hc]; rfl
  · rw [lawful_dateCmp.swap a b, hc]; rfl

theorem dle_lessB_false {a b : FGDate} (h : (FGDate.cmp a b).isLE = true) :
    b.lessB a = false := by
  rcases hc : FGDate.cmp a b with _ | _ | _
  · unfold FGDate.lessB
    rw [lawful_dateCmp.swap a b, hc]
    rfl
  · unfold FGDate.lessB
    rw [lawful_dateCmp.swap a b, hc]
    rfl
  · rw [hc] at h
    exact absurd h (by decide)

theorem weekday_nonneg (d : FGDate) : 0 ≤ d.weekday :=
  Int.emod_nonneg _ (by decide)

theorem weekday_lt (d : FGDate) : d.weekday < 7 :=
  Int.emod_lt_of_pos _ (by decide)

/-- The fold step of `lastRaw`. -/
def lastStep (bm : List TimeRange) (activity location : String) (btr : TimeRange)
    (w : Int) (acc : FGDate) (p : Nat × ActivityInstance) : FGDate :=
  if acc.lessB p.2.time.date && coversB bm activity location btr p &&
      decide (p.2.time.date.weekday = w) then p.2.time.date else acc

theorem lastRaw_eq_foldl (acts : List ActivityInstance) (bm : List TimeRange)
    (activity location : String) (btr : TimeRange) (w : Int) :
    lastRaw acts bm activity location btr w =
      acts.enum.foldl (lastStep bm activity location btr w) zeroDate := rfl

/-- The `lastRaw` fold either keeps its accumulator or returns the date
of one of the covered occurrences on the weekday. -/
theorem lastFold_cases (bm : List TimeRange) (activity location : String)
    (btr : TimeRange) (w : Int) :
    ∀ (l : List (Nat × ActivityInstance)) (acc : FGDate),
      l.foldl (lastStep bm activity location btr w) acc = acc ∨
      ∃ p ∈ l, coversB bm activity location btr p = true ∧
        p.2.time.date.weekday = w ∧
        p.2.time.date = l.foldl (lastStep bm activity location btr w) acc := by
  intro l
  induction l with
  | nil => intro acc; exact Or.inl rfl
  | cons q rest ih =>
    intro acc
    rw [List.foldl_cons]
    by_cases hcond : (acc.lessB q.2.time.date && coversB bm activity location btr q &&
        decide (q.2.time.date.weekday = w)) = true
    · have hstep : lastStep bm activity location btr w acc q = q.2.time.date := by
        unfold lastStep
        rw [if_pos hcond]
      rw [hstep]
      have hcov : coversB bm activity location btr q = true := by
        rcases Bool.and_eq_true_iff.mp hcond with ⟨h1, -⟩
        exact (Bool.and_eq_true_iff.mp h1).2
      have hwd : q.2.time.date.weekday = w := by
        rcases Bool.and_eq_true_iff.mp hcond with ⟨-, h2⟩
        exact of_decide_eq_true h2
      rcases ih q.2.time.date with h | ⟨p, hp, hc2, hw2, hd2⟩
      · exact Or.inr ⟨q, List.mem_cons_self q rest, hcov, hwd, h.symm ▸ h⟩
      · exact Or.inr ⟨p, List.mem_cons_of_mem q hp, hc2, hw2, hd2⟩
    · have hstep : lastStep bm activity location btr w acc q = acc := by
        unfold lastStep
        rw [if_neg hcond]
      rw [hstep]
      rcases ih acc with h | ⟨p, hp, hc2, hw2, hd2⟩
      · exact Or.inl h
      · exact Or.inr ⟨p, List.mem_cons_of_mem q hp, hc2, hw2, hd2⟩

/-- The `lastRaw` fold result is an upper bound of its accumulator and
of every covered occurrence date on the weekday. -/
theorem lastFold_ge (bm : List TimeRange) (activity location : String)
    (btr : TimeRange) (w : Int) :
    ∀ (l : List (Nat × ActivityInstance)) (acc : FGDate),
      (FGDate.cmp acc (l.foldl (lastStep bm activity location btr w) acc)).isLE = true ∧
      ∀ p ∈ l, coversB bm activity location btr p = true →
        p.2.time.date.weekday = w →
        (FGDate.cmp p.2.time.date
          (l.foldl (lastStep bm activity location btr w) acc)).isLE = true := by
  intro l
  induction l with
  | nil =>
    intro acc
    exact ⟨dle_refl acc, fun p hp => absurd hp (List.not_mem_nil p)⟩
  | cons q rest ih =>
    intro acc
    rw [List.foldl_cons]
    by_cases hcond : (acc.lessB q.2.time.date && coversB bm activity location btr q &&
        decide (q.2.time.date.weekday = w)) = true
    · have hstep : lastStep bm activity location btr w acc q = q.2.time.date := by
        unfold lastStep
        rw [if_pos hcond]
      rw [hstep]
      have hlt : acc.lessB q.2.time.date = true :=
        (Bool.and_eq_true_iff.mp (Bool.and_eq_true_iff.mp hcond).1).1
      refine ⟨lawful_dateCmp.isLE_trans acc q.2.time.date _
        (lessB_true_dle hlt) (ih q.2.time.date).1, ?_⟩
      intro p hp hc2 hw2
      rcases List.mem_cons.mp hp with hpq | hpr
      · rw [hpq]
        exact (ih q.2.time.date).1
      · exact (ih q.2.time.date).2 p hpr hc2 hw2
    · have hstep : lastStep bm activity location btr w acc q = acc := by
        unfold lastStep
        rw [if_neg hcond]
      rw [hstep]
      refine ⟨(ih acc).1, ?_⟩
      intro p hp hc2 hw2
      rcases List.mem_cons.mp hp with hpq | hpr
      · subst hpq
        have hlt : acc.lessB p.2.time.date = false := by
          rcases hb : acc.lessB p.2.time.date with _ | _
          · rfl
          · exfalso
            apply hcond
            rw [hb, hc2, hw2]
            simp
        exact lawful_dateCmp.isLE_trans p.2.time.date acc _
          (lessB_false_dle hlt) (ih acc).1
      · exact (ih acc).2 p hpr hc2 hw2

/-- Activation of a weekday in `instanceDays` from a covered occurrence. -/
theorem instanceDays_getD (acts : List ActivityInstance) (bm : List TimeRange)
    (activity location : String) (btr : TimeRange) (w : Int)
    (hw0 : 0 ≤ w) (hw7 : w < 7)
    (hex : ∃ p ∈ acts.enum, (coversB bm activity location btr p &&
      decide (p.2.time.date.weekday = w)) = true) :
    (instanceDays acts bm activity location btr).getD w.toNat false = true := by
  unfold instanceDays
  rw [List.getD_eq_getElem?_getD, List.getElem?_map,
    List.getElem?_range (by omega : w.toNat < 7)]
  simp only [Option.map_some', Option.getD_some]
  rw [show Int.ofNat w.toNat = w from Int.toNat_of_nonneg hw0]
  exact List.any_eq_true.mpr hex

/-- Every exception `dateExceptions` emits for a date carries that date. -/
theorem dateExceptions_date (acts : List ActivityInstance) (bm : List TimeRange)
    (activity location : String) (btr : TimeRange)
    (startD updatedD endD d : FGDate) (e : Exception)
    (h : e ∈ dateExceptions acts bm activity location btr startD updatedD endD d) :
    e.date = d := by
  rcases hfo : findOcc acts bm activity location btr d with _ | p <;>
    simp only [dateExceptions, hfo] at h
  · split_ifs at h <;>
      simp only [List.mem_singleton, List.not_mem_nil] at h <;>
        first
          | exact h.elim
          | (rw [h]; rfl)
  · rcases List.mem_append.mp h with h2 | h2 <;>
      split_ifs at h2 <;>
        simp only [List.mem_singleton, List.not_mem_nil] at h2 <;>
          first
            | exact h2.elim
            | (rw [h2]; rfl)

/-- The exceptions of `buildInstance`, unfolded. -/
theorem buildInstance_exceptions (acts : List ActivityInstance) (bm : List TimeRange)
    (spanDates : List FGDate) (startD updatedD endD : FGDate)
    (activity location : String) (btr : TimeRange) :
    (buildInstance acts bm spanDates startD updatedD endD activity location btr).exceptions =
      spanDates.flatMap (fun d =>
        if (instanceDays acts bm activity location btr).getD d.weekday.toNat false then
          dateExceptions acts bm activity location btr startD updatedD endD d
        else []) := rfl

/-- C4 amended (last-on-weekday rule): for every instance and weekday
`w` with a covered occurrence (`lastRaw` non-zero), if the
chronologically last covered occurrence date `L` on `w` lies MORE than
7 days before the schedule end (strictly earlier than end minus 7 days)
and the weekday has at least two covered occurrences, then the
synthesizer marks `L` with a last-on-weekday exception, and no excluded
exception is emitted for any weekday-`w` date strictly after `L`. (The
original claim demanded the marking when `L` is WITHIN the final 7
days, which is the inverse of the code's condition.) -/
theorem c4_amended_last_rule (acts : List ActivityInstance) (bm : List TimeRange)
    (activity location : String) (btr : TimeRange)
    (startD updatedD endD : FGDate) (w : Int)
    (hL0 : lastRaw acts bm activity location btr w ≠ zeroDate)
    (hL7 : (lastRaw acts bm activity location btr w).lessB (endD.addDays (-7)) = true)
    (hcnt : instanceCount acts bm activity location btr w ≠ 1)
    (hspan : lastRaw acts bm activity location btr w ∈ datesInRange startD endD) :
    ({ mkExc (lastRaw acts bm activity location btr w) with lastOnWeekday := true } ∈
      (buildInstance acts bm (datesInRange startD endD) startD updatedD endD
        activity location btr).exceptions) ∧
    (∀ d : FGDate, d.weekday = w →
      (lastRaw acts bm activity location btr w).lessB d = true →
      { mkExc d with excluded := true } ∉
        (buildInstance acts bm (datesInRange startD endD) startD updatedD endD
          activity location btr).exceptions) := by
  set L := lastRaw acts bm activity location btr w with hLdef
  have hcases := lastFold_cases bm activity location btr w acts.enum zeroDate
  rw [← lastRaw_eq_foldl, ← hLdef] at hcases
  rcases hcases with hzero | ⟨p, hp, hcov, hwd, hdate⟩
  · exact absurd hzero hL0
  have hLw : L.weekday = w := by rw [← hdate, hwd]
  have hw0 : 0 ≤ w := hLw ▸ weekday_nonneg L
  have hw7 : w < 7 := hLw ▸ weekday_lt L
  have hdays : (instanceDays acts bm activity location btr).getD w.toNat false = true :=
    instanceDays_getD acts bm activity location btr w hw0 hw7
      ⟨p, hp, by rw [hcov, hwd]; simp⟩
  have hlastAdj : lastAdj acts bm activity location btr endD w = L := by
    simp only [lastAdj]
    rw [← hLdef, hL7]
    rfl
  have hge := lastFold_ge bm activity location btr w acts.enum zeroDate
  rw [← lastRaw_eq_foldl, ← hLdef] at hge
  constructor
  · have hfo : ∃ q, findOcc acts bm activity location btr L = some q := by
      rw [← Option.isSome_iff_exists]
      apply List.find?_isSome.mpr
      exact ⟨p, hp, by rw [hcov, hdate]; simp⟩
    obtain ⟨q, hq⟩ := hfo
    rw [buildInstance_exceptions]
    apply List.mem_flatMap.mpr
    refine ⟨L, hspan, ?_⟩
    rw [hLw, hdays, if_pos rfl]
    simp only [dateExceptions, hq]
    apply List.mem_append.mpr
    apply Or.inr
    rw [hLw, hlastAdj]
    rw [if_neg hcnt, if_pos rfl]
    exact List.mem_singleton_self _
  · intro d hdw hLd hmem
    rw [buildInstance_exceptions] at hmem
    obtain ⟨d2, hd2span, hmem2⟩ := List.mem_flatMap.mp hmem
    by_cases hdays2 : (instanceDays acts bm activity location btr).getD d2.weekday.toNat false
    · rw [if_pos hdays2] at hmem2
      have hd2d : d2 = d :=
        (dateExceptions_date acts bm activity location btr startD updatedD endD d2 _ hmem2).symm
      subst hd2d
      have hfo : findOcc acts bm activity location btr d2 = none := by
        apply List.find?_eq_none.mpr
        intro x hx hpred
        have hxd : x.2.time.date = d2 :=
          of_decide_eq_true (Bool.and_eq_true_iff.mp hpred).1
        have hxc : coversB bm activity location btr x = true :=
          (Bool.and_eq_true_iff.mp hpred).2
        have hxw : x.2.time.date.weekday = w := by rw [hxd, hdw]
        have hdle := hge.2 x hx hxc hxw
        rw [hxd] at hdle
        rw [dle_lessB_false hdle] at hLd
        exact absurd hLd (by decide)
      simp only [dateExceptions, hfo, hdw] at hmem2
      rw [if_neg hcnt] at hmem2
      by_cases hfirst : (d2 = startD && startD.lessB updatedD) = true
      · rw [if_pos hfirst] at hmem2
        exact absurd hmem2 (List.not_mem_nil _)
      · rw [if_neg hfirst, hlastAdj] at hmem2
        have hcond : (decide (L = zeroDate) || !(L.lessB d2)) = false := by
          rw [hLd, decide_eq_false hL0]
          rfl
        rw [hcond] at hmem2
        simp at hmem2
    · rw [if_neg hdays2] at hmem2
      exact absurd hmem2 (List.not_mem_nil _)

/-- The base map of `exC6` (shared by the C4 witness). -/
def bmC6 : List TimeRange := baseMapFinal actsC6 spanC6

/-- Witness for C4 amended at `exC6`: the last Monday occurrence of the
merged A instance (2023-01-16) is more than 7 days before the span end
(2023-01-30), so it is marked last-on-weekday. -/
theorem c4_amended_last_rule_witness :
    { mkExc (lastRaw actsC6 bmC6 "A" "L" (fgTR 9 0 10 30) 1) with lastOnWeekday := true } ∈
      (buildInstance actsC6 bmC6 (datesInRange (fgDate 2023 1 2) (fgDate 2023 1 30))
        (fgDate 2023 1 2) (fgDate 2023 1 2) (fgDate 2023 1 30) "A" "L"
        (fgTR 9 0 10 30)).exceptions :=
  (c4_amended_last_rule actsC6 bmC6 "A" "L" (fgTR 9 0 10 30)
    (fgDate 2023 1 2) (fgDate 2023 1 2) (fgDate 2023 1 30) 1
    (by decide) (by decide) (by decide) (by decide)).1

/-! ## Notification stage properties (claim C10) -/

theorem lawful_notifCmp : LawfulCmp (fun a b : Notification => a.sent.cmp b.sent) :=
  lawful_comap Notification.sent lawful_dtCmp

instance : IsTotal Notification notifLE :=
  ⟨fun a b => lawful_notifCmp.isLE_total a b⟩

instance : IsTrans Notification notifLE :=
  ⟨fun a b c => lawful_notifCmp.isLE_trans a b c⟩

/-- C10 (implicit): for every non-nil notifications input, the compiled
schedule's notification list contains exactly one entry per input
notification with its text and sent timestamp (it is a permutation of
the input, mapped field-for-field), it is sorted by sent timestamp in
descending order, and entries with equal sent timestamps appear in the
reverse of their input order (the per-timestamp subsequence of the
output is the reverse of the input's). -/
theorem c10_notifications (l : List FGNotification) :
    (notifOut (some l)).Perm (l.map (fun n => ⟨n.text, n.sent⟩)) ∧
    (notifOut (some l)).Pairwise (fun a b => (b.sent.cmp a.sent).isLE = true) ∧
    ∀ k : FGDateTime,
      (notifOut (some l)).filter (fun x => decide (x.sent = k)) =
        ((l.map (fun n => (⟨n.text, n.sent⟩ : Notification))).filter
          (fun x => decide (x.sent = k))).reverse := by
  set inp := l.map (fun n => (⟨n.text, n.sent⟩ : Notification)) with hinp
  have hout : notifOut (some l) = (List.insertionSort notifLE inp).reverse := rfl
  refine ⟨?_, ?_, ?_⟩
  · rw [hout]
    exact (List.reverse_perm _).trans (List.perm_insertionSort notifLE inp)
  · rw [hout, List.pairwise_reverse]
    exact List.sorted_insertionSort notifLE inp
  · intro k
    rw [hout, List.filter_reverse]
    congr 1
    set p : Notification → Bool := fun x => decide (x.sent = k) with hp
    have hCp : ∀ x ∈ inp.filter p, x.sent = k := by
      intro x hx
      have := List.of_mem_filter hx
      simpa [hp] using this
    have hCpair : (inp.filter p).Pairwise notifLE := by
      apply List.pairwise_of_forall_mem_list
      intro a ha b hb
      have h1 := hCp a ha
      have h2 := hCp b hb
      have : a.sent.cmp b.sent = .eq := by
        rw [h1, h2]
        exact lawful_dtCmp.refl k
      simp [notifLE, this, Ordering.isLE]
    have hsub : List.Sublist (inp.filter p) (List.insertionSort notifLE inp) :=
      List.sublist_insertionSort hCpair (List.filter_sublist inp)
    have hsub2 : List.Sublist (inp.filter p) ((List.insertionSort notifLE inp).filter p) := by
      have := List.Sublist.filter p hsub
      rwa [List.filter_filter, show (fun a => p a && p a) = p from funext (fun a => by
        cases h : p a <;> simp [h])] at this
    have hlen : (inp.filter p).length =
        ((List.insertionSort notifLE inp).filter p).length :=
      (((List.perm_insertionSort notifLE inp).filter p).length_eq).symm
    exact (hsub2.eq_of_length hlen).symm

/-- C9 (implicit): exception dates within a compiled Instance are not
necessarily unique. Compiling `exC9` - whose sole Monday occurrence is
cancelled - yields one instance carrying two exceptions on 2023-01-02,
a cancelled one and an only-on-weekday one, and `Expand` applies both
when expanding that date (the event is emitted cancelled, flagged as an
exception, at the base time). -/
theorem c9_duplicate_exception_dates :
    (prepareS exC9 (some []) none).activities = [⟨"A", [⟨"L", [instC9]⟩]⟩] ∧
    instC9.exceptions.map Exception.date = [fgDate 2023 1 2, fgDate 2023 1 2] ∧
    instC9.exceptions.map Exception.cancelled = [true, false] ∧
    instC9.exceptions.map Exception.onlyOnWeekday = [false, true] ∧
    expand (prepareS exC9 (some []) none) instC9 =
      [(⟨fgDate 2023 1 2, fgTR 9 0 10 0⟩, true, true)] := by
  rw [evalC9]
  refine ⟨by decide, by decide, by decide, by decide, by decide⟩

/-! ## C8: fake-cancellation normalization -/

/-- First position of `a` in a list (length if absent). -/
def posIn [DecidableEq α] : List α → α → Nat
  | [], _ => 0
  | x :: l, a => if a = x then 0 else posIn l a + 1

/-- Specification predicate written from the claim: `r` occurs in `xs`
at least as often as every element, and every element occurring before
`r`'s first occurrence occurs strictly less often, so `r` is the most
frequently occurring value with ties broken by first-seen order. -/
def IsMostCommonFirstSeen [DecidableEq α] (xs : List α) (r : α) : Prop :=
  (∀ x ∈ xs, xs.count x ≤ xs.count r) ∧
  ∃ l1 l2, xs = l1 ++ r :: l2 ∧ ∀ x ∈ l1, xs.count x < xs.count r

theorem posIn_lt_length [DecidableEq α] {a : α} {s : List α} (h : a ∈ s) :
    posIn s a < s.length := by
  induction s with
  | nil => cases h
  | cons x l ih =>
    by_cases hax : a = x
    · simp [posIn, hax]
    · rcases List.mem_cons.mp h with h1 | h1
      · exact absurd h1 hax
      · simp only [posIn, if_neg hax, List.length_cons]
        exact Nat.succ_lt_succ (ih h1)

theorem posIn_append_left [DecidableEq α] {a : α} {s : List α} (t : List α) (h : a ∈ s) :
    posIn (s ++ t) a = posIn s a := by
  induction s with
  | nil => cases h
  | cons x l ih =>
    by_cases hax : a = x
    · simp [posIn, hax]
    · rcases List.mem_cons.mp h with h1 | h1
      · exact absurd h1 hax
      · simp only [List.cons_append, posIn, if_neg hax, List.append_eq, ih h1]

theorem posIn_append_right [DecidableEq α] {a : α} {s : List α} (t : List α) (h : a ∉ s) :
    posIn (s ++ t) a = s.length + posIn t a := by
  induction s with
  | nil => simp [posIn]
  | cons x l ih =>
    have hax : a ≠ x := fun he => h (he ▸ List.mem_cons_self x l)
    have h2 : a ∉ l := fun hm => h (List.mem_cons_of_mem x hm)
    simp only [List.cons_append, posIn, if_neg hax, List.append_eq, ih h2,
      List.length_cons]
    omega

theorem posIn_split [DecidableEq α] {a : α} {xs : List α} (h : a ∈ xs) :
    ∃ l1 l2, xs = l1 ++ a :: l2 ∧ ∀ x ∈ l1, posIn xs x < posIn xs a := by
  induction xs with
  | nil => cases h
  | cons b xs ih =>
    by_cases hab : a = b
    · exact ⟨[], xs, by rw [hab]; rfl, fun x hx => absurd hx (List.not_mem_nil x)⟩
    · rcases List.mem_cons.mp h with h1 | h1
      · exact absurd h1 hab
      · obtain ⟨l1, l2, heq, hlt⟩ := ih h1
        refine ⟨b :: l1, l2, by rw [heq]; rfl, ?_⟩
        intro x hx
        have h0 : posIn (b :: xs) b = 0 := by simp [posIn]
        have hpa : posIn (b :: xs) a = posIn xs a + 1 := by simp [posIn, hab]
        rcases List.mem_cons.mp hx with hxb | hxl
        · subst hxb
          omega
        · by_cases hxb : x = b
          · subst hxb
            omega
          · simp only [posIn, if_neg hxb, if_neg hab]
            exact Nat.succ_lt_succ (hlt x hxl)

theorem tallyAdd_not_mem [DecidableEq α] {T : List (α × Nat)} {x : α}
    (h : x ∉ T.map Prod.fst) : tallyAdd T x = T ++ [(x, 1)] := by
  induction T with
  | nil => rfl
  | cons p T ih =>
    obtain ⟨y, n⟩ := p
    have hxy : x ≠ y := fun he => h (by simp [he])
    have h2 : x ∉ T.map Prod.fst := fun hm => h (by simp [hm])
    simp only [tallyAdd, if_neg hxy, ih h2, List.cons_append]

theorem tallyAdd_mem_split [DecidableEq α] {A B : List (α × Nat)} {x : α} {n : Nat}
    (hA : x ∉ A.map Prod.fst) :
    tallyAdd (A ++ (x, n) :: B) x = A ++ (x, n + 1) :: B := by
  induction A with
  | nil => simp [tallyAdd]
  | cons p A ih =>
    obtain ⟨y, m⟩ := p
    have hxy : x ≠ y := fun he => hA (by simp [he])
    have h2 : x ∉ A.map Prod.fst := fun hm => hA (by simp [hm])
    simp only [List.cons_append, tallyAdd, if_neg hxy, List.append_eq, ih h2]

theorem keys_first_split [DecidableEq α] {T : List (α × Nat)} {x : α}
    (h : x ∈ T.map Prod.fst) :
    ∃ A n B, T = A ++ (x, n) :: B ∧ x ∉ A.map Prod.fst := by
  induction T with
  | nil => cases h
  | cons p T ih =>
    obtain ⟨y, m⟩ := p
    by_cases hxy : x = y
    · subst hxy
      exact ⟨[], m, T, rfl, by simp⟩
    · have h1 : x ∈ T.map Prod.fst := by
        rw [List.map_cons] at h
        rcases List.mem_cons.mp h with h2 | h2
        · exact absurd h2 hxy
        · exact h2
      obtain ⟨A, n, B, heq, hnA⟩ := ih h1
      refine ⟨(y, m) :: A, n, B, by rw [heq]; rfl, ?_⟩
      simp only [List.map_cons, List.mem_cons]
      rintro (h3 | h3)
      · exact hxy h3
      · exact hnA h3

theorem count_append_singleton [DecidableEq α] (s : List α) (x a : α) :
    (s ++ [x]).count a = s.count a + (if a = x then 1 else 0) := by
  rw [List.count_append]
  congr 1
  by_cases hax : a = x
  · subst hax
    simp
  · simp [List.count_cons, hax]

theorem tally_loop_inv [DecidableEq α] (xs : List α) :
    ∀ (s : List α) (T : List (α × Nat)),
      (∀ p ∈ T, p.2 = s.count p.1 ∧ p.1 ∈ s) →
      (∀ a ∈ s, a ∈ T.map Prod.fst) →
      List.Pairwise (fun a b => posIn s a < posIn s b) (T.map Prod.fst) →
      (∀ p ∈ xs.foldl tallyAdd T, p.2 = (s ++ xs).count p.1 ∧ p.1 ∈ s ++ xs) ∧
      (∀ a ∈ s ++ xs, a ∈ (xs.foldl tallyAdd T).map Prod.fst) ∧
      List.Pairwise (fun a b => posIn (s ++ xs) a < posIn (s ++ xs) b)
        ((xs.foldl tallyAdd T).map Prod.fst) := by
  induction xs with
  | nil =>
    intro s T h1 h2 h3
    simp only [List.foldl_nil, List.append_nil]
    exact ⟨h1, h2, h3⟩
  | cons x xs ih =>
    intro s T h1 h2 h3
    have hstep1 : ∀ p ∈ tallyAdd T x, p.2 = (s ++ [x]).count p.1 ∧ p.1 ∈ s ++ [x] := by
      by_cases hxk : x ∈ T.map Prod.fst
      · obtain ⟨A, n, B, hT, hnA⟩ := keys_first_split hxk
        subst hT
        rw [tallyAdd_mem_split hnA]
        have hxmem : (x, n) ∈ A ++ (x, n) :: B :=
          List.mem_append.mpr (Or.inr (List.mem_cons_self _ _))
        have hxn : n = s.count x := (h1 _ hxmem).1
        have hxs : x ∈ s := (h1 _ hxmem).2
        -- keys of B never equal x, by the strict pairwise position order
        have hkeys : List.Pairwise (fun a b => posIn s a < posIn s b)
            (A.map Prod.fst ++ x :: B.map Prod.fst) := by
          simpa using h3
        have hxB : ∀ b ∈ B.map Prod.fst, posIn s x < posIn s b :=
          (List.pairwise_cons.mp (List.pairwise_append.mp hkeys).2.1).1
        intro p hp
        rcases List.mem_append.mp hp with hpA | hpx
        · have hpT : p ∈ A ++ (x, n) :: B := List.mem_append.mpr (Or.inl hpA)
          have hpk : p.1 ≠ x := fun he =>
            hnA (he ▸ List.mem_map_of_mem Prod.fst hpA)
          refine ⟨?_, List.mem_append.mpr (Or.inl (h1 p hpT).2)⟩
          rw [count_append_singleton, if_neg hpk, (h1 p hpT).1, Nat.add_zero]
        · rcases List.mem_cons.mp hpx with hpe | hpB
          · subst hpe
            refine ⟨?_, List.mem_append.mpr (Or.inl hxs)⟩
            rw [count_append_singleton, if_pos rfl, ← hxn]
          · have hpT : p ∈ A ++ (x, n) :: B :=
              List.mem_append.mpr (Or.inr (List.mem_cons_of_mem _ hpB))
            have hpk : p.1 ≠ x := fun he => by
              have := hxB p.1 (he ▸ List.mem_map_of_mem Prod.fst hpB)
              rw [he] at this
              exact Nat.lt_irrefl _ this
            refine ⟨?_, List.mem_append.mpr (Or.inl (h1 p hpT).2)⟩
            rw [count_append_singleton, if_neg hpk, (h1 p hpT).1, Nat.add_zero]
      · rw [tallyAdd_not_mem hxk]
        have hxs : x ∉ s := fun hm => hxk (h2 x hm)
        intro p hp
        rcases List.mem_append.mp hp with hpT | hpx
        · have hpk : p.1 ≠ x := fun he =>
            hxk (he ▸ List.mem_map_of_mem Prod.fst hpT)
          refine ⟨?_, List.mem_append.mpr (Or.inl (h1 p hpT).2)⟩
          rw [count_append_singleton, if_neg hpk, (h1 p hpT).1, Nat.add_zero]
        · rcases List.mem_cons.mp hpx with hpe | hpB
          · subst hpe
            refine ⟨?_, List.mem_append.mpr (Or.inr (List.mem_singleton_self x))⟩
            rw [count_append_singleton, if_pos rfl, List.count_eq_zero.mpr hxs]
          · exact absurd hpB (List.not_mem_nil p)
    have hstep2 : ∀ a ∈ s ++ [x], a ∈ (tallyAdd T x).map Prod.fst := by
      by_cases hxk : x ∈ T.map Prod.fst
      · obtain ⟨A, n, B, hT, hnA⟩ := keys_first_split hxk
        subst hT
        rw [tallyAdd_mem_split hnA]
        intro a ha
        have hsame : (A ++ (x, n + 1) :: B).map Prod.fst =
            (A ++ (x, n) :: B).map Prod.fst := by simp
        rw [hsame]
        rcases List.mem_append.mp ha with h4 | h4
        · exact h2 a h4
        · rw [List.mem_singleton.mp h4]
          exact hxk
      · rw [tallyAdd_not_mem hxk]
        intro a ha
        rw [List.map_append]
        rcases List.mem_append.mp ha with h4 | h4
        · exact List.mem_append.mpr (Or.inl (h2 a h4))
        · rw [List.mem_singleton.mp h4]
          exact List.mem_append.mpr (Or.inr (by simp))
    have hstep3 : List.Pairwise (fun a b => posIn (s ++ [x]) a < posIn (s ++ [x]) b)
        ((tallyAdd T x).map Prod.fst) := by
      have hkeyss : ∀ a ∈ T.map Prod.fst, a ∈ s := by
        intro a ha
        obtain ⟨p, hp, hpk⟩ := List.mem_map.mp ha
        exact hpk ▸ (h1 p hp).2
      have htrans : List.Pairwise (fun a b => posIn (s ++ [x]) a < posIn (s ++ [x]) b)
          (T.map Prod.fst) := by
        refine List.Pairwise.imp_of_mem ?_ h3
        intro a b ha hb hlt
        rw [posIn_append_left [x] (hkeyss a ha), posIn_append_left [x] (hkeyss b hb)]
        exact hlt
      by_cases hxk : x ∈ T.map Prod.fst
      · obtain ⟨A, n, B, hT, hnA⟩ := keys_first_split hxk
        subst hT
        rw [tallyAdd_mem_split hnA]
        have hsame : (A ++ (x, n + 1) :: B).map Prod.fst =
            (A ++ (x, n) :: B).map Prod.fst := by simp
        rw [hsame]
        exact htrans
      · rw [tallyAdd_not_mem hxk, List.map_append]
        have hxs : x ∉ s := fun hm => hxk (h2 x hm)
        refine List.pairwise_append.mpr ⟨htrans, by simp, ?_⟩
        intro a ha b hb
        have hbx : b = x := by simpa using hb
        rw [hbx]
        rw [posIn_append_left [x] (hkeyss a ha), posIn_append_right [x] hxs]
        have h0 : posIn [x] x = 0 := by simp [posIn]
        rw [h0]
        have := posIn_lt_length (hkeyss a ha)
        omega
    have hmain := ih (s ++ [x]) (tallyAdd T x) hstep1 hstep2 hstep3
    simpa [List.append_assoc] using hmain

theorem tally_spec [DecidableEq α] (xs : List α) :
    (∀ p ∈ tally xs, p.2 = xs.count p.1 ∧ p.1 ∈ xs) ∧
    (∀ a ∈ xs, a ∈ (tally xs).map Prod.fst) ∧
    List.Pairwise (fun a b => posIn xs a < posIn xs b) ((tally xs).map Prod.fst) := by
  have := tally_loop_inv xs [] []
    (fun p hp => absurd hp (List.not_mem_nil p))
    (fun a ha => absurd ha (List.not_mem_nil a))
    List.Pairwise.nil
  simpa [tally] using this

/-- The fold inside `mostCommon`, named for reasoning. -/
def pickMax (b : α × Nat) (L : List (α × Nat)) : α × Nat :=
  L.foldl (fun best p => if best.2 < p.2 then p else best) b

theorem pickMax_le (L : List (α × Nat)) :
    ∀ b, b.2 ≤ (pickMax b L).2 ∧ ∀ p ∈ L, p.2 ≤ (pickMax b L).2 := by
  induction L with
  | nil =>
    intro b
    exact ⟨Nat.le_refl _, fun p hp => absurd hp (List.not_mem_nil p)⟩
  | cons q L ih =>
    intro b
    have hstep : pickMax b (q :: L) = pickMax (if b.2 < q.2 then q else b) L := rfl
    obtain ⟨ihb, ihp⟩ := ih (if b.2 < q.2 then q else b)
    have hble : b.2 ≤ (if b.2 < q.2 then q else b).2 := by
      by_cases h : b.2 < q.2
      · rw [if_pos h]; omega
      · rw [if_neg h]
    have hqle : q.2 ≤ (if b.2 < q.2 then q else b).2 := by
      by_cases h : b.2 < q.2
      · rw [if_pos h]
      · rw [if_neg h]; omega
    refine ⟨hstep ▸ Nat.le_trans hble ihb, ?_⟩
    intro p hp
    rw [hstep]
    rcases List.mem_cons.mp hp with h1 | h1
    · subst h1
      exact Nat.le_trans hqle ihb
    · exact ihp p h1

theorem pickMax_split (L : List (α × Nat)) :
    ∀ b, pickMax b L = b ∨
      ∃ L1 L2, L = L1 ++ (pickMax b L) :: L2 ∧
        (∀ p ∈ L1, p.2 < (pickMax b L).2) ∧ b.2 < (pickMax b L).2 := by
  induction L with
  | nil =>
    intro b
    exact Or.inl rfl
  | cons q L ih =>
    intro b
    have hstep : pickMax b (q :: L) = pickMax (if b.2 < q.2 then q else b) L := rfl
    by_cases h : b.2 < q.2
    · have hstep2 : pickMax b (q :: L) = pickMax q L := by rw [hstep, if_pos h]
      rcases ih q with h1 | ⟨L1, L2, heq, hlt, hql⟩
      · refine Or.inr ⟨[], L, ?_, fun p hp => absurd hp (List.not_mem_nil p), ?_⟩
        · rw [hstep2, h1]
          rfl
        · rw [hstep2, h1]
          exact h
      · refine Or.inr ⟨q :: L1, L2, ?_, ?_, ?_⟩
        · rw [hstep2]
          conv_lhs => rw [heq]
          rfl
        · intro p hp
          rw [hstep2]
          rcases List.mem_cons.mp hp with h1 | h1
          · subst h1
            exact hql
          · exact hlt p h1
        · rw [hstep2]
          exact Nat.lt_trans h hql
    · have hstep2 : pickMax b (q :: L) = pickMax b L := by rw [hstep, if_neg h]
      rcases ih b with h1 | ⟨L1, L2, heq, hlt, hbl⟩
      · exact Or.inl (by rw [hstep2, h1])
      · refine Or.inr ⟨q :: L1, L2, ?_, ?_, ?_⟩
        · rw [hstep2]
          conv_lhs => rw [heq]
          rfl
        · intro p hp
          rw [hstep2]
          rcases List.mem_cons.mp hp with h1 | h1
          · subst h1
            exact Nat.lt_of_le_of_lt (Nat.le_of_not_lt h) hbl
          · exact hlt p h1
        · rw [hstep2]
          exact hbl

theorem mostCommon_spec [DecidableEq α] (z : α) (xs : List α) (hne : xs ≠ []) :
    IsMostCommonFirstSeen xs (mostCommon z xs) := by
  obtain ⟨hcnt, hcompl, hpw⟩ := tally_spec xs
  obtain ⟨r, hrdef⟩ : ∃ r, pickMax (z, 0) (tally xs) = r := ⟨_, rfl⟩
  have hfold : mostCommon z xs = r.1 := by rw [← hrdef]; rfl
  have hles := pickMax_le (tally xs) (z, 0)
  rw [hrdef] at hles
  rcases pickMax_split (tally xs) (z, 0) with h1 | ⟨L1, L2, heq, hlt, hz⟩
  · exfalso
    rw [hrdef] at h1
    obtain ⟨x0, hx0⟩ := List.exists_mem_of_ne_nil xs hne
    obtain ⟨p0, hp0, hp0k⟩ := List.mem_map.mp (hcompl x0 hx0)
    have hle := hles.2 p0 hp0
    rw [h1] at hle
    have hle0 : p0.2 ≤ 0 := hle
    have hc0 := (hcnt p0 hp0).1
    have hpos : xs.count p0.1 ≠ 0 := fun h0 => (List.count_eq_zero.mp h0) (hcnt p0 hp0).2
    omega
  · rw [hrdef] at heq hlt
    have hrT : r ∈ tally xs := by
      rw [heq]
      exact List.mem_append.mpr (Or.inr (List.mem_cons_self _ _))
    obtain ⟨hrc, hrx⟩ := hcnt _ hrT
    rw [hfold]
    constructor
    · intro x hx
      obtain ⟨p, hp, hpk⟩ := List.mem_map.mp (hcompl x hx)
      have hple := hles.2 p hp
      rw [← hpk, ← hrc, ← (hcnt p hp).1]
      exact hple
    · obtain ⟨l1, l2, hxeq, hposlt⟩ := posIn_split hrx
      refine ⟨l1, l2, hxeq, ?_⟩
      intro x hxl1
      have hxxs : x ∈ xs := by
        rw [hxeq]
        exact List.mem_append.mpr (Or.inl hxl1)
      obtain ⟨p, hp, hpk⟩ := List.mem_map.mp (hcompl x hxxs)
      have hpT := hp
      rw [heq] at hp
      rcases List.mem_append.mp hp with hpL1 | hpr
      · have hplt := hlt p hpL1
        rw [← hpk, ← hrc, ← (hcnt p hpT).1]
        exact hplt
      · exfalso
        rcases List.mem_cons.mp hpr with hpe | hpL2
        · have hxr : x = r.1 := by rw [← hpk, hpe]
          have hcon := hposlt x hxl1
          rw [hxr] at hcon
          exact Nat.lt_irrefl _ hcon
        · have hkeys : List.Pairwise (fun a b => posIn xs a < posIn xs b)
              (L1.map Prod.fst ++ r.1 :: L2.map Prod.fst) := by
            rw [heq] at hpw
            simpa using hpw
          have hcross := (List.pairwise_cons.mp (List.pairwise_append.mp hkeys).2.1).1
            p.1 (List.mem_map_of_mem Prod.fst hpL2)
          have hxlt := hposlt x hxl1
          rw [← hpk] at hxlt
          omega

/-- Witness input for the fake-cancellation claim: two real Monday
9:00 Yoga occurrences at locations L2 and L3 and a third Monday entry
named "Yoga - CANCELLED" (not flagged cancelled) at L1. -/
def occC8 : ActivityInstance := mkOcc "Yoga - CANCELLED" "L1" 2023 1 16 9 0 10 0 false

def actsC8 : List ActivityInstance :=
  [mkOcc "Yoga" "L2" 2023 1 2 9 0 10 0 false,
   mkOcc "Yoga" "L3" 2023 1 9 9 0 10 0 false,
   occC8]

/-- C8: an occurrence named "Yoga - CANCELLED" with cancelled=false is
normalized by the fake-cancellation step to activity name "Yoga" with
cancelled=true (its time untouched); if any other occurrence shares the
cleaned activity name, start time of day, and weekday, the occurrence's
identifier, description, and location are each replaced by the most
frequently occurring value among those matches, ties broken by
first-seen order, and if there are no matches the three fields are left
as-is. -/
theorem c8_fake_cancellation (acts : List ActivityInstance) (fai : Nat)
    (fa0 : ActivityInstance) (hget : acts.get? fai = some fa0)
    (hname : fa0.activity = "Yoga - CANCELLED") (hnc : fa0.isCancelled = false) :
    ∃ fa2, convertCancellation acts fai = acts.set fai fa2 ∧
      fa2.activity = "Yoga" ∧ fa2.isCancelled = true ∧ fa2.time = fa0.time ∧
      (possibleMatches acts fai { fa0 with activity := "Yoga", isCancelled := true } = [] →
        fa2.activityID = fa0.activityID ∧ fa2.description = fa0.description ∧
          fa2.location = fa0.location) ∧
      (possibleMatches acts fai { fa0 with activity := "Yoga", isCancelled := true } ≠ [] →
        IsMostCommonFirstSeen
          ((possibleMatches acts fai
            { fa0 with activity := "Yoga", isCancelled := true }).map
              (fun m => m.activityID)) fa2.activityID ∧
        IsMostCommonFirstSeen
          ((possibleMatches acts fai
            { fa0 with activity := "Yoga", isCancelled := true }).map
              (fun m => m.description)) fa2.description ∧
        IsMostCommonFirstSeen
          ((possibleMatches acts fai
            { fa0 with activity := "Yoga", isCancelled := true }).map
              (fun m => m.location)) fa2.location) := by
  have hstrip : stripCancelMarker "Yoga - CANCELLED" = ("Yoga", true) := by decide
  simp only [convertCancellation, hget, hnc, hname, hstrip]
  set fa1 : ActivityInstance := { fa0 with activity := "Yoga", isCancelled := true } with hfa1
  by_cases hms : possibleMatches acts fai fa1 = []
  · refine ⟨fa1, ?_, rfl, rfl, rfl, fun _ => ⟨rfl, rfl, rfl⟩, fun hne => absurd hms hne⟩
    rw [hms]
    rfl
  · have hne : (possibleMatches acts fai fa1).isEmpty = false := by
      cases hval : possibleMatches acts fai fa1 with
      | nil => exact absurd hval hms
      | cons a l => rfl
    refine ⟨{ fa1 with
        activityID := mostCommonBy "" (fun m => m.activityID) (possibleMatches acts fai fa1),
        description := mostCommonBy "" (fun m => m.description) (possibleMatches acts fai fa1),
        location := mostCommonBy "" (fun m => m.location) (possibleMatches acts fai fa1) },
      ?_, rfl, rfl, rfl, fun he => absurd he hms, fun _ => ⟨?_, ?_, ?_⟩⟩
    · rw [hne]
      rfl
    · exact mostCommon_spec "" _ (fun he => hms (List.map_eq_nil.mp he))
    · exact mostCommon_spec "" _ (fun he => hms (List.map_eq_nil.mp he))
    · exact mostCommon_spec "" _ (fun he => hms (List.map_eq_nil.mp he))

theorem c8_fake_cancellation_witness :
    ∃ fa2, convertCancellation actsC8 2 = actsC8.set 2 fa2 ∧
      fa2.activity = "Yoga" ∧ fa2.isCancelled = true ∧ fa2.time = occC8.time ∧
      (possibleMatches actsC8 2 { occC8 with activity := "Yoga", isCancelled := true } = [] →
        fa2.activityID = occC8.activityID ∧ fa2.description = occC8.description ∧
          fa2.location = occC8.location) ∧
      (possibleMatches actsC8 2 { occC8 with activity := "Yoga", isCancelled := true } ≠ [] →
        IsMostCommonFirstSeen
          ((possibleMatches actsC8 2
            { occC8 with activity := "Yoga", isCancelled := true }).map
              (fun m => m.activityID)) fa2.activityID ∧
        IsMostCommonFirstSeen
          ((possibleMatches actsC8 2
            { occC8 with activity := "Yoga", isCancelled := true }).map
              (fun m => m.description)) fa2.description ∧
        IsMostCommonFirstSeen
          ((possibleMatches actsC8 2
            { occC8 with activity := "Yoga", isCancelled := true }).map
              (fun m => m.location)) fa2.location) :=
  c8_fake_cancellation actsC8 2 occC8 rfl rfl rfl

end Ifgsch
